import Mathlib

set_option linter.unusedVariables false

/-!
Shallow embedding of the physical-frame manager (`src/vm/frame.c`) and the
user-memory helpers of the syscall layer (`src/userprog/syscall.c`) of the
cs140 Pintos virtual-memory subsystem, together with proofs of the spec's
testable properties.

Modelling conventions:
* The Pintos doubly linked list with head/tail sentinels is embedded as a
  `List FrameEntry` plus a `HandPos` cursor that can sit on the head
  sentinel, on an element (identified by a unique record id), or on the
  tail sentinel.  `list_next`, `list_begin` and the wrap-around logic of
  `clock_next` follow the C code line by line.
* Frame records are identified by a `Nat` id standing for the record's
  address; validity of a state asserts the ids are distinct.
* Hardware state touched by the code is part of `FrameState`: the
  per-pagedir accessed bits become a function of thread id and user
  address, physical memory becomes a flat byte function.
* Kernel `ASSERT`s and `PANIC`s are modelled by `Option`: a `none` result
  of `frame_pin_no_lock`, `frame_unpin`, `clock_algorithm`, `frame_evict`
  or `frame_get` is an assertion failure or an exhausted loop fuel, both
  of which are proved unreachable from valid states.
* External collaborators (`palloc_get_page`, `page_evict`) are passed in
  as explicit parameters describing their outcome.
* The C `while`/`do-while` loops of `clock_algorithm` are written with an
  explicit fuel of `frames.length + 1`; the theorems prove this fuel is
  never exhausted, which is the termination statement for the loops.
* `clock_algorithm` additionally returns the number of `clock_next`
  invocations it performed, so that the two-revolution bound is a theorem
  about the code rather than an informal remark.
* The lock/condition-variable protocol of `frame_evict` / `frame_clear`
  cannot live in a sequential embedding; it is modelled separately as a
  small interleaving transition system (`TConfig`/`tstep`) whose atomic
  steps are exactly the lock-protected critical sections of the C code.
-/

/-- Position of the clock hand inside the Pintos list `frames`:
the head sentinel, a list element carrying a frame-record id, or the
tail sentinel (which is also `list_begin` of an empty list). -/
inductive HandPos where
  | head : HandPos
  | onId : Nat → HandPos
  | tail : HandPos
deriving DecidableEq, Repr

/-- One `struct frame_entry` of `vm/frame.c`: owning thread `t`, owned
user virtual address `uaddr`, physical page `kaddr`, and the pinned flag.
The `id` field stands for the record's identity (its address in C). -/
structure FrameEntry where
  id : Nat
  t : Nat
  uaddr : Nat
  kaddr : Nat
  pinned : Bool
deriving DecidableEq, Repr

/-- The global state of `vm/frame.c`: the frame list, the clock hand,
the in-flight eviction counter `transition_frames`, plus the hardware
state the code reads and writes (accessed bits keyed by owning thread's
pagedir and user address, and flat physical memory). -/
structure FrameState where
  frames : List FrameEntry
  hand : HandPos
  transition_frames : Int
  accessed : Nat → Nat → Bool
  mem : Nat → Nat

/-- The list of record ids currently in the registry. -/
def idsOf (s : FrameState) : List Nat :=
  s.frames.map (fun fe => fe.id)

/-- Look up the frame record with the given id. -/
def lookupF (s : FrameState) (i : Nat) : Option FrameEntry :=
  s.frames.find? (fun fe => fe.id == i)

/-- Replace (mutate in place) the record with the given id. -/
def updateF (s : FrameState) (i : Nat) (g : FrameEntry → FrameEntry) : FrameState :=
  { s with frames := s.frames.map (fun fe => if fe.id = i then g fe else fe) }

/-- Pintos `list_begin`: the first element, or the tail sentinel for an
empty list. -/
def list_begin (L : List FrameEntry) : HandPos :=
  match L with
  | [] => .tail
  | f :: _ => .onId f.id

/-- Successor of the element with id `i` inside `L`: the following
element, or the tail sentinel if `i` is last (or absent). -/
def nextAfter (L : List FrameEntry) (i : Nat) : HandPos :=
  match L with
  | [] => .tail
  | f :: rest =>
    if f.id = i then
      match rest with
      | [] => .tail
      | g :: _ => .onId g.id
    else nextAfter rest i

/-- Pintos `list_next` on a hand position. -/
def list_next (L : List FrameEntry) (p : HandPos) : HandPos :=
  match p with
  | .head => list_begin L
  | .onId i => nextAfter L i
  | .tail => .tail

/-- The `clock_next` helper of `frame.c`: advance the hand, wrapping
from the tail sentinel back to `list_begin`.  Returns the updated state
together with the new hand position (the C code returns the new hand). -/
def clock_next (s : FrameState) : FrameState × HandPos :=
  let h := list_next s.frames s.hand
  let h' := if h = .tail then list_begin s.frames else h
  ({ s with hand := h' }, h')

/-- The id carried by a hand position sitting on an element. -/
def handId : HandPos → Option Nat
  | .onId i => some i
  | _ => none

/-- The `frame_pin_no_lock` helper: `ASSERT (!f->pinned)` then set the
flag.  `none` is the assertion failure. -/
def frame_pin_no_lock (f : FrameEntry) : Option FrameEntry :=
  if f.pinned then none else some { f with pinned := true }

/-- `frame_unpin`: `ASSERT (!lock_held_by_current_thread)` then under the
lock `ASSERT (f->pinned)` and clear the flag.  `none` is an assertion
failure. -/
def frame_unpin (lockHeld : Bool) (f : FrameEntry) : Option FrameEntry :=
  if lockHeld then none
  else if f.pinned then some { f with pinned := false } else none

/-- Effect of `frame_pin_no_lock` on the registry state: pin the record
with the given id in place. -/
def pin_in_state (s : FrameState) (i : Nat) : Option FrameState :=
  match lookupF s i with
  | none => none
  | some fe =>
    match frame_pin_no_lock fe with
    | none => none
    | some fe' => some (updateF s i (fun _ => fe'))

/-- Effect of `frame_unpin` on the registry state. -/
def unpin_in_state (s : FrameState) (i : Nat) (lockHeld : Bool) : Option FrameState :=
  match lookupF s i with
  | none => none
  | some fe =>
    match frame_unpin lockHeld fe with
    | none => none
    | some fe' => some (updateF s i (fun _ => fe'))

/-- Clear the hardware accessed bit for the record's (pagedir, uaddr),
i.e. `pagedir_set_accessed (f->t->pagedir, f->uaddr, false)`. -/
def clearAccessed (s : FrameState) (fe : FrameEntry) : FrameState :=
  { s with accessed := fun a b => if a = fe.t ∧ b = fe.uaddr then false else s.accessed a b }

/-- First phase of `clock_algorithm`: starting from the record with id
`f`, advance past pinned records until an unpinned record is found
(`some` id), or the scan comes back to `clock_start` (`some none`,
meaning every record is pinned).  `steps` accumulates the number of
`clock_next` calls; the outer `none` is exhausted fuel or a dangling
hand, both unreachable from valid states. -/
def clock_find_unpinned (fuel : Nat) (s : FrameState) (f : Nat) (clock_start : Nat)
    (steps : Nat) : Option (FrameState × Option Nat × Nat) :=
  match fuel with
  | 0 => none
  | fuel' + 1 =>
    match lookupF s f with
    | none => none
    | some fe =>
      if fe.pinned then
        let p := clock_next s
        match handId p.2 with
        | none => none
        | some f' =>
          if f' = clock_start then some (p.1, none, steps + 1)
          else clock_find_unpinned fuel' p.1 f' clock_start (steps + 1)
      else some (s, some f, steps)

/-- Second phase of `clock_algorithm` (the `do … while (f != clock_start)`
loop): give each unpinned record with a set accessed bit a second chance
by clearing the bit, and stop on the first unpinned record whose bit is
clear, or on coming back around to `clock_start`.  Returns the state, the
victim id and the accumulated `clock_next` count. -/
def clock_sweep (fuel : Nat) (s : FrameState) (f : Nat) (clock_start : Nat)
    (steps : Nat) : Option (FrameState × Nat × Nat) :=
  match fuel with
  | 0 => none
  | fuel' + 1 =>
    match lookupF s f with
    | none => none
    | some fe =>
      if fe.pinned = false ∧ s.accessed fe.t fe.uaddr = false then
        some (s, f, steps)
      else
        let s₁ := if fe.pinned then s else clearAccessed s fe
        let p := clock_next s₁
        match handId p.2 with
        | none => none
        | some f' =>
          if f' = clock_start then some (p.1, clock_start, steps + 1)
          else clock_sweep fuel' p.1 f' clock_start (steps + 1)

/-- The `clock_algorithm` of `frame.c`.  Returns `some (s', victim?,
steps)` where `victim?` is the id of the chosen (now pinned) record or
`none` when the registry is empty or fully pinned, and `steps` counts
the `clock_next` calls performed.  The outer `none` models a kernel
panic (failed assert) or non-termination, both proved unreachable. -/
def clock_algorithm (s : FrameState) : Option (FrameState × Option Nat × Nat) :=
  if s.frames.isEmpty then some (s, none, 0)
  else
    let p := clock_next s
    match handId p.2 with
    | none => none
    | some f0 =>
      match clock_find_unpinned (s.frames.length + 1) p.1 f0 f0 1 with
      | none => none
      | some (s₂, none, steps) => some (s₂, none, steps)
      | some (s₂, some cs, steps) =>
        match clock_sweep (s.frames.length + 1) s₂ cs cs steps with
        | none => none
        | some (s₃, victim, steps') =>
          match pin_in_state s₃ victim with
          | none => none
          | some s₄ => some (s₄, some victim, steps')

/-- Page size used by `memset (f->kaddr, 0, PGSIZE)`. -/
def PGSIZE : Nat := 4096

/-- The `vm_flags` of the allocation facade; only the `PAL_ZERO` bit is
observable in this excerpt. -/
structure VmFlags where
  zero : Bool
deriving DecidableEq, Repr

/-- The `frame_create` helper: build a pinned record and push it at the
back of the registry.  `newId` stands for the address `malloc` returned
(the `malloc` failure `PANIC` is outside the model). -/
def frame_create (s : FrameState) (t uaddr kpage newId : Nat) : FrameState × Nat :=
  ({ s with frames := s.frames ++
      [{ id := newId, t := t, uaddr := uaddr, kaddr := kpage, pinned := true }] },
   newId)

/-- The `frame_evict` coordinator: pick a victim with the clock
algorithm, publish the in-flight counter, run the external `page_evict`
callback (its outcome is the parameter `evict_ok`), then either unpin the
victim on failure or move it to the new owner `(t, uaddr)` on success,
and finally take the counter back down.  Returns the repurposed record's
id, or `none` on failure; the outer `none` is a panic, proved
unreachable. -/
def frame_evict (s : FrameState) (t uaddr : Nat) (evict_ok : Bool) :
    Option (FrameState × Option Nat) :=
  match clock_algorithm s with
  | none => none
  | some (s₁, none, _) => some (s₁, none)
  | some (s₁, some vid, _) =>
    let s₂ := { s₁ with transition_frames := s₁.transition_frames + 1 }
    match (if evict_ok then
             some (updateF s₂ vid (fun fe => { fe with t := t, uaddr := uaddr }), some vid)
           else
             match unpin_in_state s₂ vid false with
             | none => none
             | some s₃ => some (s₃, none)) with
    | none => none
    | some (s₃, r) =>
      some ({ s₃ with transition_frames := s₃.transition_frames - 1 }, r)

/-- The `frame_get` allocation facade.  `palloc_res` is the outcome of
`palloc_get_page (PAL_USER | flags)` (the external physical allocator),
`evict_ok` the outcome of the `page_evict` callback if eviction is
reached, `cur` the current thread and `newId` the fresh record id used
by `frame_create`.  On an eviction satisfying a `PAL_ZERO` request the
whole page at the victim's `kaddr` is zeroed before returning. -/
def frame_get (s : FrameState) (cur uaddr : Nat) (flags : VmFlags)
    (palloc_res : Option Nat) (evict_ok : Bool) (newId : Nat) :
    Option (FrameState × Option Nat) :=
  match palloc_res with
  | some kpage =>
    let p := frame_create s cur uaddr kpage newId
    some (p.1, some p.2)
  | none =>
    match frame_evict s cur uaddr evict_ok with
    | none => none
    | some (s', none) => some (s', none)
    | some (s', some fid) =>
      if flags.zero then
        match lookupF s' fid with
        | none => none
        | some fe =>
          some ({ s' with
                  mem := fun a => if fe.kaddr ≤ a ∧ a < fe.kaddr + PGSIZE then 0 else s'.mem a },
                some fid)
      else some (s', some fid)

/-- The `clock_safe_frame_remove` helper: if the clock hand sits on the
record being removed, advance it first (in the old list), remove the
record, and re-wrap the hand to `list_begin` if it fell off the tail;
otherwise just remove.  The caller's page-table entry back-reference is
cleared by the callers (`frame_free` returns the new back-reference). -/
def clock_safe_frame_remove (s : FrameState) (fid : Nat) : FrameState :=
  if s.hand = .onId fid then
    let h := list_next s.frames s.hand
    let frames' := s.frames.filter (fun fe => fe.id != fid)
    let h' := if h = .tail then list_begin frames' else h
    { s with frames := frames', hand := h' }
  else
    { s with frames := s.frames.filter (fun fe => fe.id != fid) }

/-- The `frame_free` teardown entry point.  The page-table entry is
represented by its back-reference `spe` (the `spe->frame` field).
Returns the new state, the new back-reference, and the boolean result of
the C function, which is the constant `true` on every path. -/
def frame_free (s : FrameState) (spe : Option Nat) : FrameState × Option Nat × Bool :=
  match spe with
  | none => (s, none, true)
  | some fid =>
    match lookupF s fid with
    | none => (s, some fid, true)
    | some fe =>
      if fe.pinned then (s, some fid, true)
      else (clock_safe_frame_remove s fid, none, true)

/-- The `frame_init` setup: empty registry, hand on the head sentinel,
in-flight counter zero. -/
def frame_init : FrameState :=
  { frames := [], hand := .head, transition_frames := 0,
    accessed := fun _ _ => false, mem := fun _ => 0 }

/-- Hand validity: the hand sits on the head sentinel, on a record that
is present in the registry, or (only when the registry is empty) on the
tail sentinel, where `clock_safe_frame_remove` may leave it. -/
def HandOk (s : FrameState) : Prop :=
  s.hand = .head ∨ (∃ fe ∈ s.frames, s.hand = .onId fe.id) ∨
    (s.frames = [] ∧ s.hand = .tail)

instance : DecidablePred HandOk := fun s => by
  unfold HandOk
  infer_instance

/-- Registry validity: record ids are pairwise distinct (records are
distinct heap objects) and the hand is valid. -/
def ValidState (s : FrameState) : Prop :=
  (s.frames.map (fun fe => fe.id)).Nodup ∧ HandOk s

instance : DecidablePred ValidState := fun s => by
  unfold ValidState
  infer_instance

/-- The Pintos user/kernel boundary `PHYS_BASE`. -/
def PHYS_BASE : Nat := 0xC0000000

/-- The `get_user` probe of `syscall.c`: dereference a user address with
a fault handler.  The MMU outcome is the parameter `readMem`; on a
successful read the `movzbl` zero-extends the byte, on a fault the
handler yields `-1`. -/
def get_user (readMem : Nat → Option Nat) (uaddr : Nat) : Int :=
  match readMem uaddr with
  | some b => Int.ofNat (b % 256)
  | none => -1

/-- The `put_user` probe: write a byte to a user address, reporting
whether the MMU faulted.  `writable` is the MMU outcome. -/
def put_user (writable : Nat → Bool) (udst : Nat) (byte : Nat) : Bool :=
  writable udst

/-- `get_byte`: reject addresses at or above `PHYS_BASE`, then probe. -/
def get_byte (readMem : Nat → Option Nat) (uaddr : Nat) : Int :=
  if uaddr < PHYS_BASE then get_user readMem uaddr else -1

/-- `put_byte`: reject addresses at or above `PHYS_BASE`, then probe. -/
def put_byte (writable : Nat → Bool) (udst : Nat) (byte : Nat) : Bool :=
  if udst < PHYS_BASE then put_user writable udst byte else false

/-- The loop body of `user_memcpy`: copy byte `i`, `i+1`, … while
`rem` bytes remain, stopping at the first `get_byte` failure.  Returns
the updated kernel memory and the final loop counter `i`. -/
def user_memcpy_from (readMem : Nat → Option Nat) (mem : Nat → Nat)
    (dst src : Nat) : Nat → Nat → (Nat → Nat) × Nat
  | i, 0 => (mem, i)
  | i, rem + 1 =>
    let result := get_byte readMem (src + i)
    if result = -1 then (mem, i)
    else
      user_memcpy_from readMem
        (fun a => if a = dst + i then result.toNat else mem a) dst src (i + 1) rem

/-- `user_memcpy`: copy `size` bytes from user space at `src` into the
kernel buffer at `dst`, returning the number of bytes copied. -/
def user_memcpy (readMem : Nat → Option Nat) (mem : Nat → Nat)
    (dst src size : Nat) : (Nat → Nat) × Nat :=
  user_memcpy_from readMem mem dst src 0 size

/-- Program counter of one eviction (`frame_evict`) in the counter
protocol: before its first critical section, inside the unlocked
callback phase (counter published), or reconciled. -/
inductive EvPc where
  | start : EvPc
  | callback : EvPc
  | done : EvPc
deriving DecidableEq, Repr

/-- Program counter of the teardown thread (`frame_clear`): not yet
called, blocked in `cond_wait` (lock released), woken by the broadcast
but not yet re-holding the lock, removing frames (lock held), and
returned. -/
inductive ClPc where
  | idle : ClPc
  | waiting : ClPc
  | ready : ClPc
  | removing : ClPc
  | cdone : ClPc
deriving DecidableEq, Repr

/-- Configuration of the quiescence protocol shared by `frame_evict` and
`frame_clear`: the per-eviction counters `evs`, the shared
`transition_frames` counter, the teardown thread's pc, and the ghost
record `pre` of which evictions were in their callback phase at the
moment `frame_clear` acquired the registry lock.  The registry lock is
held exactly while the teardown pc is `removing` (every other critical
section is a single atomic step). -/
structure TConfig where
  evs : List EvPc
  counter : Nat
  cl : ClPc
  pre : List Nat
deriving DecidableEq, Repr

/-- Scheduler actions: eviction `i` runs its increment critical section
(`transition_frames++` under the lock, then release and enter the
callback), eviction `i` runs its decrement critical section
(`transition_frames--`, broadcasting `no_transitions` at zero),
`frame_clear` runs its entry section (acquire the lock, record the ghost
`pre`, and either start removing or block in `cond_wait` — the code
checks the counter with `if`, not `while`), the woken `frame_clear`
re-acquires the lock and starts removing, and `frame_clear` finishes. -/
inductive TAct where
  | incr : Nat → TAct
  | decr : Nat → TAct
  | tstart : TAct
  | resume : TAct
  | finish : TAct
deriving DecidableEq, Repr

/-- One interleaving step of the protocol; actions whose guard (pc and
lock availability) does not hold leave the configuration unchanged. -/
def tstep (c : TConfig) (a : TAct) : TConfig :=
  match a with
  | .incr i =>
    if c.cl ≠ .removing ∧ c.evs.get? i = some .start then
      { c with evs := c.evs.set i .callback, counter := c.counter + 1 }
    else c
  | .decr i =>
    if c.cl ≠ .removing ∧ c.evs.get? i = some .callback then
      { c with evs := c.evs.set i .done, counter := c.counter - 1,
               cl := if c.counter - 1 = 0 ∧ c.cl = .waiting then .ready else c.cl }
    else c
  | .tstart =>
    if c.cl = .idle then
      let pre := (List.range c.evs.length).filter (fun i => c.evs.get? i = some .callback)
      if c.counter > 0 then { c with cl := .waiting, pre := pre }
      else { c with cl := .removing, pre := pre }
    else c
  | .resume =>
    if c.cl = .ready then { c with cl := .removing } else c
  | .finish =>
    if c.cl = .removing then { c with cl := .cdone } else c

/-- Run a schedule from a configuration. -/
def trun (c : TConfig) (acts : List TAct) : TConfig :=
  acts.foldl tstep c

/-- Initial protocol configuration: `k` evictions yet to start, counter
zero, teardown not yet called. -/
def tinit (k : Nat) : TConfig :=
  { evs := List.replicate k .start, counter := 0, cl := .idle, pre := [] }

/-- Example frame record used by the concrete test states. -/
def exFrame (i : Nat) (p : Bool) : FrameEntry :=
  { id := i, t := 1, uaddr := 10 * i, kaddr := 100 * i, pinned := p }

/-- The three-frame registry of testable property P4: frames 1, 2, 3 in
scan order with accessed bits true, true, false and the hand on the head
sentinel, i.e. just before frame 1. -/
def c3State : FrameState :=
  { frames := [exFrame 1 false, exFrame 2 false, exFrame 3 false],
    hand := .head,
    transition_frames := 0,
    accessed := fun a b => decide (a = 1 ∧ (b = 10 ∨ b = 20)),
    mem := fun _ => 0 }

/-- A two-frame registry in which every frame is pinned. -/
def allPinnedState : FrameState :=
  { frames := [exFrame 1 true, exFrame 2 true],
    hand := .onId 2,
    transition_frames := 0,
    accessed := fun _ _ => false,
    mem := fun _ => 0 }

/-- An empty registry as left by `frame_init`. -/
def emptyState : FrameState := frame_init

/-- A two-frame registry with frame 1 pinned and frame 2 unpinned. -/
def mixedState : FrameState :=
  { frames := [exFrame 1 true, exFrame 2 false],
    hand := .head,
    transition_frames := 0,
    accessed := fun a b => decide (a = 1 ∧ b = 20),
    mem := fun a => a + 7 }

/-- C8: pin-state transitions strictly alternate.  `frame_pin_no_lock`
on an already pinned record and `frame_unpin` on an already unpinned
record fail their assertion instead of proceeding, `frame_unpin` called
with the registry lock already held fails its assertion, and the
successful transitions flip exactly the pinned flag. -/
theorem c8_pin_unpin_alternation (f : FrameEntry) (lockHeld : Bool) :
    (f.pinned = true → frame_pin_no_lock f = none) ∧
    (f.pinned = false → frame_pin_no_lock f = some { f with pinned := true }) ∧
    (f.pinned = false → frame_unpin lockHeld f = none) ∧
    (lockHeld = true → frame_unpin lockHeld f = none) ∧
    (lockHeld = false → f.pinned = true → frame_unpin lockHeld f = some { f with pinned := false }) := by
  refine ⟨?_, ?_, ?_, ?_, ?_⟩
  · intro h
    simp [frame_pin_no_lock, h]
  · intro h
    simp [frame_pin_no_lock, h]
  · intro h
    simp [frame_unpin, h]
  · intro h
    simp [frame_unpin, h]
  · intro h h'
    simp [frame_unpin, h, h']

/-- Witness for C8 at a concrete pinned record. -/
theorem c8_pin_unpin_alternation_witness :
    frame_pin_no_lock (exFrame 1 true) = none ∧
    frame_unpin true (exFrame 1 true) = none ∧
    frame_unpin false (exFrame 1 false) = none := by
  refine ⟨?_, ?_, ?_⟩
  · exact (c8_pin_unpin_alternation (exFrame 1 true) true).1 rfl
  · exact (c8_pin_unpin_alternation (exFrame 1 true) true).2.2.2.1 rfl
  · exact (c8_pin_unpin_alternation (exFrame 1 false) false).2.2.1 rfl

/-- C10: `frame_free` returns `true` on every input — when the page
entry has no frame, when the frame is pinned (in which case the registry
is untouched), and when a frame is actually removed — so its result
never distinguishes whether a frame was deallocated. -/
theorem c10_frame_free_always_true (s : FrameState) (spe : Option Nat) :
    (frame_free s spe).2.2 = true ∧
    (spe = none → frame_free s spe = (s, none, true)) ∧
    (∀ fid fe, spe = some fid → lookupF s fid = some fe → fe.pinned = true →
      frame_free s spe = (s, some fid, true)) := by
  refine ⟨?_, ?_, ?_⟩
  · cases spe with
    | none => rfl
    | some fid =>
      simp only [frame_free]
      cases h : lookupF s fid with
      | none => rfl
      | some fe => by_cases hp : fe.pinned <;> simp [hp]
  · intro h
    subst h
    rfl
  · intro fid fe hs hl hp
    subst hs
    simp [frame_free, hl, hp]

/-- Witness for C10: a missing frame and a pinned frame both yield
`true` with the registry untouched. -/
theorem c10_frame_free_always_true_witness :
    frame_free allPinnedState none = (allPinnedState, none, true) ∧
    frame_free allPinnedState (some 1) = (allPinnedState, some 1, true) :=
  ⟨(c10_frame_free_always_true allPinnedState none).2.1 rfl,
   (c10_frame_free_always_true allPinnedState (some 1)).2.2 1 (exFrame 1 true) rfl rfl rfl⟩

/-- C3: on the three-frame registry with accessed bits
[true, true, false] in scan order and the hand just before frame 1, the
clock sweep clears the two set bits it passes and selects frame 3 —
whose bit was already clear — as the victim, pinning it; no frame is
selected while a passed frame's bit is still set, as the cleared bits
show. -/
theorem c3_second_chance_sweep :
    c3State.accessed 1 10 = true ∧ c3State.accessed 1 20 = true ∧
    c3State.accessed 1 30 = false ∧
    (clock_algorithm c3State).map (fun r => r.2.1) = some (some 3) ∧
    (clock_algorithm c3State).map
      (fun r => (r.1.accessed 1 10, r.1.accessed 1 20, r.1.accessed 1 30)) =
      some (false, false, false) ∧
    (clock_algorithm c3State).map (fun r => r.1.frames.map (fun fe => (fe.id, fe.pinned))) =
      some [(1, false), (2, false), (3, true)] := by
  refine ⟨rfl, rfl, rfl, rfl, rfl, rfl⟩

/-- Fixed user-space contents for the `user_memcpy` examples: addresses
0 to 4 hold readable bytes, everything else faults. -/
def exReadMem : Nat → Option Nat :=
  fun a => if a < 5 then some (a + 65) else none

/-- Behaviour of the `user_memcpy` loop from an arbitrary loop counter:
the final counter moves forward by at most `rem`, every copied position
was a successful `get_byte` whose value landed at the matching `dst`
offset, the loop stopped early only on a failing `get_byte`, and no
byte outside the copied range was touched. -/
theorem user_memcpy_from_spec (readMem : Nat → Option Nat) (dst src : Nat) :
    ∀ (rem i : Nat) (mem : Nat → Nat) (r : (Nat → Nat) × Nat),
      user_memcpy_from readMem mem dst src i rem = r →
      i ≤ r.2 ∧ r.2 ≤ i + rem ∧
      (∀ j, i ≤ j → j < r.2 →
        get_byte readMem (src + j) ≠ -1 ∧
        r.1 (dst + j) = (get_byte readMem (src + j)).toNat) ∧
      (r.2 < i + rem → get_byte readMem (src + r.2) = -1) ∧
      (∀ a, (∀ j, i ≤ j → j < r.2 → a ≠ dst + j) → r.1 a = mem a) := by
  intro rem
  induction rem with
  | zero =>
    intro i mem r hr
    simp only [user_memcpy_from] at hr
    subst hr
    refine ⟨Nat.le_refl _, Nat.le_refl _, ?_, ?_, ?_⟩
    · intro j hj hj'
      exact absurd (Nat.lt_of_le_of_lt hj hj') (Nat.lt_irrefl _)
    · intro h
      exact absurd h (Nat.lt_irrefl _)
    · intro a _
      rfl
  | succ rem ih =>
    intro i mem r hr
    by_cases hb : get_byte readMem (src + i) = -1
    · simp only [user_memcpy_from, hb, if_pos] at hr
      subst hr
      refine ⟨Nat.le_refl _, Nat.le_add_right _ _, ?_, ?_, ?_⟩
      · intro j hj hj'
        exact absurd (Nat.lt_of_le_of_lt hj hj') (Nat.lt_irrefl _)
      · intro _
        exact hb
      · intro a _
        rfl
    · simp only [user_memcpy_from, hb, if_neg, not_false_iff] at hr
      obtain ⟨h1, h2, h3, h4, h5⟩ := ih (i + 1)
        (fun a => if a = dst + i then (get_byte readMem (src + i)).toNat else mem a) r hr
      have hii : i < r.2 := Nat.lt_of_lt_of_le (Nat.lt_succ_self i) h1
      refine ⟨Nat.le_of_lt hii, ?_, ?_, ?_, ?_⟩
      · have : i + 1 + rem = i + (rem + 1) := by omega
        exact this ▸ h2
      · intro j hj hj'
        rcases Nat.eq_or_lt_of_le hj with hji | hji
        · rw [← hji]
          refine ⟨hb, ?_⟩
          have h5i := h5 (dst + i) ?_
          · rw [h5i]
            simp
          · intro j' hj1 hj2 heq
            have : i = j' := Nat.add_left_cancel heq
            omega
        · exact h3 j hji hj'
      · intro hlt
        exact h4 (by omega)
      · intro a ha
        have hne : a ≠ dst + i := ha i (Nat.le_refl i) hii
        have := h5 a (fun j hj1 hj2 => ha j (by omega) hj2)
        rw [this]
        simp [hne]

/-- C9: `get_byte` rejects every address at or above `PHYS_BASE` with
`-1` and `put_byte` rejects it with `false` no matter what the MMU
would do; `user_memcpy` copies bytes of `src` in order into `dst`,
stops at the first faulting or invalid address, touches nothing past
what it copied, and returns exactly the number of bytes copied — in
particular `size` when every read succeeds. -/
theorem c9_safe_user_memory (readMem : Nat → Option Nat) (writable : Nat → Bool)
    (uaddr udst b : Nat) (mem : Nat → Nat) (dst src size : Nat) :
    (PHYS_BASE ≤ uaddr → get_byte readMem uaddr = -1) ∧
    (PHYS_BASE ≤ udst → put_byte writable udst b = false) ∧
    (user_memcpy readMem mem dst src size).2 ≤ size ∧
    (∀ j, j < (user_memcpy readMem mem dst src size).2 →
      get_byte readMem (src + j) ≠ -1 ∧
      (user_memcpy readMem mem dst src size).1 (dst + j) =
        (get_byte readMem (src + j)).toNat) ∧
    ((user_memcpy readMem mem dst src size).2 < size →
      get_byte readMem (src + (user_memcpy readMem mem dst src size).2) = -1) ∧
    ((∀ j, j < size → get_byte readMem (src + j) ≠ -1) →
      (user_memcpy readMem mem dst src size).2 = size) := by
  obtain ⟨h1, h2, h3, h4, h5⟩ :=
    user_memcpy_from_spec readMem dst src size 0 mem
      (user_memcpy readMem mem dst src size) rfl
  refine ⟨?_, ?_, by simpa using h2, ?_, by simpa using h4, ?_⟩
  · intro h
    unfold get_byte
    rw [if_neg (Nat.not_lt.mpr h)]
  · intro h
    unfold put_byte
    rw [if_neg (Nat.not_lt.mpr h)]
  · intro j hj
    exact h3 j (Nat.zero_le j) hj
  · intro hall
    rcases Nat.lt_or_ge (user_memcpy readMem mem dst src size).2 size with hlt | hge
    · exact absurd (h4 (by simpa using hlt)) (hall _ hlt)
    · exact Nat.le_antisymm (by simpa using h2) hge

/-- Witness for C9: the boundary address is rejected on read and write,
and copying 8 bytes from a user region readable only at addresses 0–4
stops exactly at the first faulting address. -/
theorem c9_safe_user_memory_witness :
    get_byte exReadMem PHYS_BASE = -1 ∧
    put_byte (fun a => decide (a < PHYS_BASE)) PHYS_BASE 7 = false ∧
    get_byte exReadMem (0 + (user_memcpy exReadMem (fun _ => 0) 1000 0 8).2) = -1 ∧
    (user_memcpy exReadMem (fun _ => 0) 1000 0 8).1 (1000 + 2) =
      (get_byte exReadMem (0 + 2)).toNat := by
  have h := c9_safe_user_memory exReadMem (fun a => decide (a < PHYS_BASE))
    PHYS_BASE PHYS_BASE 7 (fun _ => 0) 1000 0 8
  exact ⟨h.1 (Nat.le_refl _), h.2.1 (Nat.le_refl _),
    h.2.2.2.2.1 (by decide), (h.2.2.2.1 2 (by decide)).2⟩

/-- With pairwise-distinct ids, `find?` by id returns exactly the member
carrying that id. -/
theorem find_id_eq (L : List FrameEntry) (fe : FrameEntry) (h : fe ∈ L)
    (hnd : (L.map (fun x => x.id)).Nodup) :
    L.find? (fun x => x.id == fe.id) = some fe := by
  induction L with
  | nil => cases h
  | cons a rest ih =>
    rcases List.mem_cons.mp h with rfl | hrest
    · simp [List.find?]
    · have hnd' := hnd
      rw [List.map_cons, List.nodup_cons] at hnd'
      have hane : a.id ≠ fe.id := by
        intro he
        exact hnd'.1 (he ▸ List.mem_map_of_mem (fun x => x.id) hrest)
      rw [List.find?_cons_of_neg _ (by simp [hane])]
      exact ih hrest hnd'.2

/-- Registry-level form of `find_id_eq`. -/
theorem lookupF_eq (s : FrameState) (fe : FrameEntry) (h : fe ∈ s.frames)
    (hnd : (s.frames.map (fun x => x.id)).Nodup) :
    lookupF s fe.id = some fe :=
  find_id_eq s.frames fe h hnd

/-- Successor of an element followed by another element. -/
theorem nextAfter_eq_cons (A : List FrameEntry) (f g : FrameEntry) (B : List FrameEntry)
    (h : f.id ∉ A.map (fun x => x.id)) :
    nextAfter (A ++ f :: g :: B) f.id = .onId g.id := by
  induction A with
  | nil => simp [nextAfter]
  | cons a A ih =>
    have hane : a.id ≠ f.id := by
      intro he
      exact h (by simp [he])
    simp only [List.cons_append, nextAfter, if_neg hane]
    refine ih ?_
    intro hmem
    simp only [List.map_cons, List.mem_cons] at h
    exact h (Or.inr hmem)

/-- Successor of the last element is the tail sentinel. -/
theorem nextAfter_eq_last (A : List FrameEntry) (f : FrameEntry)
    (h : f.id ∉ A.map (fun x => x.id)) :
    nextAfter (A ++ [f]) f.id = .tail := by
  induction A with
  | nil => simp [nextAfter]
  | cons a A ih =>
    have hane : a.id ≠ f.id := by
      intro he
      exact h (by simp [he])
    simp only [List.cons_append, nextAfter, if_neg hane]
    refine ih ?_
    intro hmem
    simp only [List.map_cons, List.mem_cons] at h
    exact h (Or.inr hmem)

/-- In a registry with distinct ids the id of an element does not occur
in the other parts of a decomposition. -/
theorem not_mem_ids_left (A : List FrameEntry) (f : FrameEntry) (B : List FrameEntry)
    (hnd : ((A ++ f :: B).map (fun x => x.id)).Nodup) :
    f.id ∉ A.map (fun x => x.id) := by
  rw [List.map_append, List.map_cons] at hnd
  intro hmem
  rcases (List.nodup_append.mp hnd) with ⟨_, _, hdisj⟩
  exact hdisj hmem (by simp)

/-- Advancing the hand from an element of the registry: the hand lands
on the head of the ring `B ++ A ++ [f]` of elements that follow `f`
cyclically, and nothing but the hand changes. -/
theorem clock_next_ring (s : FrameState) (A : List FrameEntry) (f : FrameEntry)
    (B : List FrameEntry) (hL : s.frames = A ++ f :: B)
    (hnd : (s.frames.map (fun x => x.id)).Nodup)
    (hh : s.hand = .onId f.id) :
    ∃ g R, B ++ A ++ [f] = g :: R ∧
      clock_next s = ({ s with hand := .onId g.id }, .onId g.id) := by
  have hfa : f.id ∉ A.map (fun x => x.id) := not_mem_ids_left A f B (hL ▸ hnd)
  cases B with
  | cons g B' =>
    refine ⟨g, B' ++ A ++ [f], by simp, ?_⟩
    simp [clock_next, list_next, hh, hL, nextAfter_eq_cons A f g B' hfa]
  | nil =>
    cases A with
    | nil =>
      refine ⟨f, [], by simp, ?_⟩
      have hn : nextAfter [f] f.id = .tail := by
        simpa using nextAfter_eq_last [] f (by simp)
      simp [clock_next, list_next, hh, hL, hn, list_begin]
    | cons a A' =>
      refine ⟨a, A' ++ [f], by simp, ?_⟩
      have hn : nextAfter (a :: (A' ++ [f])) f.id = .tail := by
        simpa using nextAfter_eq_last (a :: A') f hfa
      simp [clock_next, list_next, hh, hL, hn, list_begin]

/-- Re-decompose the registry around the element the hand just moved
to: if `g` heads the ring of `f`, then `L` splits around `g` and the
ring of `g` is the rest of the ring of `f` followed by `f` itself. -/
theorem split_after_next (L A : List FrameEntry) (f : FrameEntry) (B : List FrameEntry)
    (g : FrameEntry) (R : List FrameEntry)
    (hL : L = A ++ f :: B) (hring : B ++ A ++ [f] = g :: R) :
    ∃ A' B', L = A' ++ g :: B' ∧ B' ++ A' = R := by
  cases B with
  | cons g₁ B₁ =>
    have h1 : g₁ :: (B₁ ++ A ++ [f]) = g :: R := by simpa using hring
    injection h1 with hg hR
    subst hg
    refine ⟨A ++ [f], B₁, by simp [hL], ?_⟩
    rw [← List.append_assoc]
    exact hR
  | nil =>
    cases A with
    | nil =>
      have h1 : f :: ([] : List FrameEntry) = g :: R := by simpa using hring
      injection h1 with hg hR
      subst hg
      exact ⟨[], [], by simpa using hL, by simp [← hR]⟩
    | cons a A₁ =>
      have h1 : a :: (A₁ ++ [f]) = g :: R := by simpa using hring
      injection h1 with hg hR
      subst hg
      exact ⟨[], A₁ ++ [f], by simpa using hL, by simpa using hR⟩

/-- The visiting order `D ++ c :: R` of a clock scan is a permutation of
the registry. -/
theorem ring_perm (L A : List FrameEntry) (c : FrameEntry) (B D R : List FrameEntry)
    (hL : L = A ++ c :: B) (hr : B ++ A = R ++ D) :
    (D ++ c :: R).Perm L := by
  rw [hL]
  refine (List.perm_middle).trans ?_
  refine (List.Perm.cons c List.perm_append_comm).trans ?_
  rw [← hr]
  refine (List.Perm.cons c List.perm_append_comm).trans ?_
  exact List.perm_middle.symm

/-- One unfolding of the first clock loop once the current record is
resolved. -/
theorem clock_find_unpinned_step (fuel : Nat) (s : FrameState) (c : FrameEntry)
    (s0id steps : Nat) (hc : lookupF s c.id = some c) :
    clock_find_unpinned (fuel + 1) s c.id s0id steps =
      if c.pinned then
        match handId (clock_next s).2 with
        | none => none
        | some f' =>
          if f' = s0id then some ((clock_next s).1, none, steps + 1)
          else clock_find_unpinned fuel (clock_next s).1 f' s0id (steps + 1)
      else some (s, some c.id, steps) := by
  simp only [clock_find_unpinned, hc]

/-- One unfolding of the sweep loop once the current record is
resolved. -/
theorem clock_sweep_step (fuel : Nat) (s : FrameState) (c : FrameEntry)
    (s0id steps : Nat) (hc : lookupF s c.id = some c) :
    clock_sweep (fuel + 1) s c.id s0id steps =
      if c.pinned = false ∧ s.accessed c.t c.uaddr = false then
        some (s, c.id, steps)
      else
        match handId (clock_next (if c.pinned then s else clearAccessed s c)).2 with
        | none => none
        | some f' =>
          if f' = s0id then
            some ((clock_next (if c.pinned then s else clearAccessed s c)).1,
                  s0id, steps + 1)
          else clock_sweep fuel (clock_next (if c.pinned then s else clearAccessed s c)).1
                 f' s0id (steps + 1)
      := by
  simp only [clock_sweep, hc]

/-- An element of the scan's remainder lies in the tail of the visit
list. -/
theorem mem_tail_append_cons (D : List FrameEntry) (c g : FrameEntry) (R : List FrameEntry)
    (hg : g ∈ R) : g ∈ (D ++ c :: R).tail := by
  cases D with
  | nil => simpa using hg
  | cons d D' =>
    simp only [List.cons_append, List.tail_cons]
    exact List.mem_append.mpr (Or.inr (List.mem_cons_of_mem c hg))

/-- In a duplicate-free visit list an element of the tail differs in id
from the head. -/
theorem id_ne_of_head (V : List FrameEntry) (s0 g : FrameEntry)
    (hnd : (V.map (fun x => x.id)).Nodup) (hh : V.head? = some s0)
    (hg : g ∈ V.tail) : g.id ≠ s0.id := by
  cases V with
  | nil => cases hh
  | cons v V' =>
    have hv : v = s0 := by simpa using hh
    subst hv
    simp only [List.tail_cons] at hg
    rw [List.map_cons, List.nodup_cons] at hnd
    intro he
    exact hnd.1 (he ▸ List.mem_map_of_mem (fun x => x.id) hg)

/-- If the whole registry is pinned, the first clock loop walks one full
revolution back to its starting record and reports that no victim
exists, leaving everything but the hand unchanged. -/
theorem clock_find_unpinned_all_pinned (s0 : FrameEntry) :
    ∀ (R D : List FrameEntry) (s : FrameState) (c : FrameEntry) (steps fuel : Nat)
      (A B : List FrameEntry),
      s.frames = A ++ c :: B → B ++ A = R ++ D →
      (s.frames.map (fun x => x.id)).Nodup →
      s.hand = .onId c.id →
      (D ++ c :: R).head? = some s0 →
      (∀ x ∈ D ++ c :: R, x.pinned = true) →
      R.length + 1 ≤ fuel →
      clock_find_unpinned fuel s c.id s0.id steps =
        some ({ s with hand := .onId s0.id }, none, steps + R.length + 1) := by
  intro R
  induction R with
  | nil =>
    intro D s c steps fuel A B hL hr hnd hh hs0 hpin hfuel
    obtain ⟨fuel', rfl⟩ : ∃ fuel', fuel = fuel' + 1 := ⟨fuel - 1, by omega⟩
    have hcmem : c ∈ s.frames := by
      rw [hL]
      exact List.mem_append.mpr (Or.inr (List.mem_cons_self c B))
    have hc : lookupF s c.id = some c := lookupF_eq s c hcmem hnd
    obtain ⟨g, Rr, hring, hcn⟩ := clock_next_ring s A c B hL hnd hh
    have hDc : D ++ [c] = g :: Rr := by
      rw [← hring, hr]
      simp
    have hg : g = s0 := by
      have h1 : (D ++ [c]).head? = some g := by rw [hDc]; rfl
      have h2 : (D ++ [c]).head? = some s0 := by simpa using hs0
      have := h1.symm.trans h2
      simpa using this
    rw [hg] at hcn
    have hcp : c.pinned = true := hpin c (by simp)
    rw [clock_find_unpinned_step fuel' s c s0.id steps hc, if_pos hcp, hcn]
    simp [handId]
  | cons g₁ R' ih =>
    intro D s c steps fuel A B hL hr hnd hh hs0 hpin hfuel
    obtain ⟨fuel', rfl⟩ : ∃ fuel', fuel = fuel' + 1 := ⟨fuel - 1, by omega⟩
    have hcmem : c ∈ s.frames := by
      rw [hL]
      exact List.mem_append.mpr (Or.inr (List.mem_cons_self c B))
    have hc : lookupF s c.id = some c := lookupF_eq s c hcmem hnd
    obtain ⟨g, Rr, hring, hcn⟩ := clock_next_ring s A c B hL hnd hh
    have hGr : g₁ :: (R' ++ D ++ [c]) = g :: Rr := by
      rw [← hring, hr]
      simp
    injection hGr with hg hRr
    subst hg
    have hVperm := ring_perm s.frames A c B D (g₁ :: R') hL hr
    have hndV : ((D ++ c :: g₁ :: R').map (fun x => x.id)).Nodup :=
      ((hVperm.map (fun x => x.id)).nodup_iff).mpr hnd
    have hne : g₁.id ≠ s0.id :=
      id_ne_of_head (D ++ c :: g₁ :: R') s0 g₁ hndV hs0
        (mem_tail_append_cons D c g₁ (g₁ :: R') (List.mem_cons_self g₁ R'))
    have hcp : c.pinned = true := hpin c (by simp)
    obtain ⟨A', B', hL', hr'⟩ :=
      split_after_next s.frames A c B g₁ (R' ++ D ++ [c]) hL (by rw [hring, ← hRr])
    have hstep := clock_find_unpinned_step fuel' s c s0.id steps hc
    rw [hstep, if_pos hcp, hcn]
    simp only [handId, if_neg hne]
    have hihyp := ih (D ++ [c]) ({ s with hand := .onId g₁.id }) g₁ (steps + 1) fuel' A' B'
      hL' (by rw [hr']; simp) hnd rfl
      (by rw [List.append_assoc]; simpa using hs0)
      (by
        intro x hx
        refine hpin x ?_
        have : (D ++ [c]) ++ g₁ :: R' = D ++ c :: g₁ :: R' := by simp
        rw [this] at hx
        exact hx)
      (by simp at hfuel; omega)
    have harith : steps + 1 + R'.length + 1 = steps + (g₁ :: R').length + 1 := by
      simp [List.length_cons]
      omega
    rw [harith] at hihyp
    exact hihyp

/-- Index and identity of the first unpinned record in a scan list. -/
def scanFirstUnpinned : List FrameEntry → Option (Nat × FrameEntry)
  | [] => none
  | fe :: rest =>
    if fe.pinned then (scanFirstUnpinned rest).map (fun p => (p.1 + 1, p.2))
    else some (0, fe)

/-- Single unfolding of the scan. -/
theorem scanFirstUnpinned_cons (a : FrameEntry) (l : List FrameEntry) :
    scanFirstUnpinned (a :: l) =
      if a.pinned then (scanFirstUnpinned l).map (fun p => (p.1 + 1, p.2))
      else some (0, a) := rfl

/-- The scan finds nothing exactly when every record is pinned. -/
theorem scanFirstUnpinned_none (l : List FrameEntry) :
    scanFirstUnpinned l = none ↔ ∀ x ∈ l, x.pinned = true := by
  induction l with
  | nil => simp [scanFirstUnpinned]
  | cons a rest ih =>
    by_cases hp : a.pinned
    · simp [scanFirstUnpinned, hp, ih]
    · simp [scanFirstUnpinned, hp]

/-- What the scan result means: a member, unpinned, within bounds. -/
theorem scanFirstUnpinned_some (l : List FrameEntry) :
    ∀ (j : Nat) (w : FrameEntry), scanFirstUnpinned l = some (j, w) →
      w ∈ l ∧ w.pinned = false ∧ j + 1 ≤ l.length := by
  induction l with
  | nil => intro j w h; cases h
  | cons a rest ih =>
    intro j w h
    by_cases hp : a.pinned
    · simp only [scanFirstUnpinned, if_pos hp] at h
      cases hs : scanFirstUnpinned rest with
      | none => rw [hs] at h; cases h
      | some p =>
        obtain ⟨j', w'⟩ := p
        rw [hs] at h
        simp only [Option.map_some'] at h
        injection h with h'
        injection h' with hj hw
        subst hw
        subst hj
        obtain ⟨h1, h2, h3⟩ := ih j' w' hs
        exact ⟨List.mem_cons_of_mem a h1, h2,
          by simpa [List.length_cons] using Nat.succ_le_succ h3⟩
    · simp only [scanFirstUnpinned, if_neg hp] at h
      injection h with h'
      injection h' with hj hw
      exact ⟨hw ▸ List.mem_cons_self a rest, hw ▸ (by simpa using hp),
        by rw [← hj]; simp⟩

/-- If the registry holds an unpinned record, the first clock loop stops
on the first unpinned record of the visiting order, moving only the
hand and taking one `clock_next` call per record it skips. -/
theorem clock_find_unpinned_found (s0 : FrameEntry) :
    ∀ (R D : List FrameEntry) (s : FrameState) (c : FrameEntry) (steps fuel : Nat)
      (A B : List FrameEntry) (j : Nat) (w : FrameEntry),
      s.frames = A ++ c :: B → B ++ A = R ++ D →
      (s.frames.map (fun x => x.id)).Nodup →
      s.hand = .onId c.id →
      (D ++ c :: R).head? = some s0 →
      scanFirstUnpinned (c :: R) = some (j, w) →
      R.length + 1 ≤ fuel →
      clock_find_unpinned fuel s c.id s0.id steps =
        some ({ s with hand := .onId w.id }, some w.id, steps + j) := by
  intro R
  induction R with
  | nil =>
    intro D s c steps fuel A B j w hL hr hnd hh hs0 hscan hfuel
    obtain ⟨fuel', rfl⟩ : ∃ fuel', fuel = fuel' + 1 := ⟨fuel - 1, by omega⟩
    have hcmem : c ∈ s.frames := by
      rw [hL]
      exact List.mem_append.mpr (Or.inr (List.mem_cons_self c B))
    have hc : lookupF s c.id = some c := lookupF_eq s c hcmem hnd
    by_cases hp : c.pinned
    · simp [scanFirstUnpinned, hp] at hscan
    · simp only [scanFirstUnpinned, if_neg hp] at hscan
      injection hscan with h'
      injection h' with hj hw
      rw [clock_find_unpinned_step fuel' s c s0.id steps hc, if_neg hp]
      rw [← hj, ← hw]
      have hself : ({ s with hand := .onId c.id } : FrameState) = s := by
        rw [← hh]
      rw [hself]
      simp
  | cons g₁ R' ih =>
    intro D s c steps fuel A B j w hL hr hnd hh hs0 hscan hfuel
    obtain ⟨fuel', rfl⟩ : ∃ fuel', fuel = fuel' + 1 := ⟨fuel - 1, by omega⟩
    have hcmem : c ∈ s.frames := by
      rw [hL]
      exact List.mem_append.mpr (Or.inr (List.mem_cons_self c B))
    have hc : lookupF s c.id = some c := lookupF_eq s c hcmem hnd
    by_cases hp : c.pinned
    · rw [scanFirstUnpinned_cons, if_pos hp] at hscan
      cases hs : scanFirstUnpinned (g₁ :: R') with
      | none => rw [hs] at hscan; cases hscan
      | some p =>
        obtain ⟨j', w'⟩ := p
        rw [hs] at hscan
        simp only [Option.map_some'] at hscan
        injection hscan with h'
        injection h' with hj hw
        obtain ⟨g, Rr, hring, hcn⟩ := clock_next_ring s A c B hL hnd hh
        have hGr : g₁ :: (R' ++ D ++ [c]) = g :: Rr := by
          rw [← hring, hr]
          simp
        injection hGr with hg hRr
        subst hg
        have hVperm := ring_perm s.frames A c B D (g₁ :: R') hL hr
        have hndV : ((D ++ c :: g₁ :: R').map (fun x => x.id)).Nodup :=
          ((hVperm.map (fun x => x.id)).nodup_iff).mpr hnd
        have hne : g₁.id ≠ s0.id :=
          id_ne_of_head (D ++ c :: g₁ :: R') s0 g₁ hndV hs0
            (mem_tail_append_cons D c g₁ (g₁ :: R') (List.mem_cons_self g₁ R'))
        obtain ⟨A', B', hL', hr'⟩ :=
          split_after_next s.frames A c B g₁ (R' ++ D ++ [c]) hL (by rw [hring, ← hRr])
        rw [clock_find_unpinned_step fuel' s c s0.id steps hc, if_pos hp, hcn]
        simp only [handId, if_neg hne]
        have hihyp := ih (D ++ [c]) ({ s with hand := .onId g₁.id }) g₁ (steps + 1) fuel'
          A' B' j' w' hL' (by rw [hr']; simp) hnd rfl
          (by rw [List.append_assoc]; simpa using hs0)
          hs
          (by simp at hfuel; omega)
        have harith : steps + 1 + j' = steps + j := by omega
        rw [harith] at hihyp
        rw [← hw]
        exact hihyp
    · simp only [scanFirstUnpinned, if_neg hp] at hscan
      injection hscan with h'
      injection h' with hj hw
      rw [clock_find_unpinned_step fuel' s c s0.id steps hc, if_neg hp]
      rw [← hj, ← hw]
      have hself : ({ s with hand := .onId c.id } : FrameState) = s := by
        rw [← hh]
      rw [hself]
      simp

/-- Clearing one accessed bit never sets another. -/
theorem clearAccessed_mono (s : FrameState) (fe : FrameEntry) (a b : Nat)
    (h : s.accessed a b = false) : (clearAccessed s fe).accessed a b = false := by
  by_cases hk : a = fe.t ∧ b = fe.uaddr <;> simp [clearAccessed, hk, h]

/-- The bit just cleared reads back as clear. -/
theorem clearAccessed_self (s : FrameState) (fe : FrameEntry) :
    (clearAccessed s fe).accessed fe.t fe.uaddr = false := by
  simp [clearAccessed]

/-- The sweep phase of the clock algorithm terminates within one
revolution on a victim: an unpinned record whose accessed bit is clear
when the sweep stops.  Only the hand and accessed bits change, accessed
bits are only ever cleared, and the hand ends on the victim. -/
theorem clock_sweep_spec (s0 : FrameEntry) :
    ∀ (R D : List FrameEntry) (s : FrameState) (c : FrameEntry) (steps fuel : Nat)
      (A B : List FrameEntry),
      s.frames = A ++ c :: B → B ++ A = R ++ D →
      (s.frames.map (fun x => x.id)).Nodup →
      s.hand = .onId c.id →
      (D ++ c :: R).head? = some s0 →
      s0.pinned = false →
      (D ≠ [] → s.accessed s0.t s0.uaddr = false) →
      R.length + 1 ≤ fuel →
      ∃ s' w j,
        clock_sweep fuel s c.id s0.id steps = some (s', w.id, steps + j) ∧
        j ≤ R.length + 1 ∧
        w ∈ s.frames ∧ w.pinned = false ∧
        s'.frames = s.frames ∧ s'.mem = s.mem ∧
        s'.transition_frames = s.transition_frames ∧
        s'.hand = .onId w.id ∧
        s'.accessed w.t w.uaddr = false ∧
        (∀ a b, s.accessed a b = false → s'.accessed a b = false) := by
  intro R
  induction R with
  | nil =>
    intro D s c steps fuel A B hL hr hnd hh hs0 hs0p hinv hfuel
    obtain ⟨fuel', rfl⟩ : ∃ fuel', fuel = fuel' + 1 := ⟨fuel - 1, by omega⟩
    have hcmem : c ∈ s.frames := by
      rw [hL]
      exact List.mem_append.mpr (Or.inr (List.mem_cons_self c B))
    have hc : lookupF s c.id = some c := lookupF_eq s c hcmem hnd
    have hs0mem : s0 ∈ s.frames := by
      have hperm := ring_perm s.frames A c B D [] hL hr
      exact hperm.mem_iff.mp (List.mem_of_mem_head? hs0)
    by_cases hbrk : c.pinned = false ∧ s.accessed c.t c.uaddr = false
    · refine ⟨s, c, 0, ?_, by omega, hcmem, hbrk.1, rfl, rfl, rfl, hh, hbrk.2,
        fun a b h => h⟩
      rw [clock_sweep_step fuel' s c s0.id steps hc, if_pos hbrk]
      simp
    · by_cases hp : c.pinned
      · -- current record pinned: advance without clearing
        have hDne : D ≠ [] := by
          intro hD
          subst hD
          have : c = s0 := by simpa using hs0
          rw [this, hs0p] at hp
          cases hp
        obtain ⟨g, Rr, hring, hcn⟩ := clock_next_ring s A c B hL hnd hh
        have hDc : D ++ [c] = g :: Rr := by
          rw [← hring, hr]
          simp
        have hg : g = s0 := by
          have h1 : (D ++ [c]).head? = some g := by rw [hDc]; rfl
          have h2 : (D ++ [c]).head? = some s0 := by simpa using hs0
          have := h1.symm.trans h2
          simpa using this
        rw [hg] at hcn
        refine ⟨{ s with hand := .onId s0.id }, s0, 1, ?_, by omega, hs0mem, hs0p,
          rfl, rfl, rfl, rfl, hinv hDne, fun a b h => h⟩
        rw [clock_sweep_step fuel' s c s0.id steps hc, if_neg hbrk]
        simp only [hp, if_true, hcn]
        simp [handId]
      · -- current record unpinned with a set accessed bit: clear and advance
        have hacc : s.accessed c.t c.uaddr = true := by
          by_contra hcontra
          exact hbrk ⟨by simpa using hp, by simpa using hcontra⟩
        obtain ⟨g, Rr, hring, hcn⟩ :=
          clock_next_ring (clearAccessed s c) A c B hL hnd hh
        have hDc : D ++ [c] = g :: Rr := by
          rw [← hring, hr]
          simp
        have hg : g = s0 := by
          have h1 : (D ++ [c]).head? = some g := by rw [hDc]; rfl
          have h2 : (D ++ [c]).head? = some s0 := by simpa using hs0
          have := h1.symm.trans h2
          simpa using this
        rw [hg] at hcn
        have hacc0 : (clearAccessed s c).accessed s0.t s0.uaddr = false := by
          by_cases hD : D = []
          · subst hD
            have hc0 : c = s0 := by simpa using hs0
            rw [← hc0]
            exact clearAccessed_self s c
          · exact clearAccessed_mono s c s0.t s0.uaddr (hinv hD)
        refine ⟨{ clearAccessed s c with hand := .onId s0.id }, s0, 1, ?_, by omega,
          hs0mem, hs0p, rfl, rfl, rfl, rfl, hacc0,
          fun a b h => clearAccessed_mono s c a b h⟩
        rw [clock_sweep_step fuel' s c s0.id steps hc, if_neg hbrk]
        simp only [hp, if_false, Bool.false_eq_true, hcn]
        simp [handId]
  | cons g₁ R' ih =>
    intro D s c steps fuel A B hL hr hnd hh hs0 hs0p hinv hfuel
    obtain ⟨fuel', rfl⟩ : ∃ fuel', fuel = fuel' + 1 := ⟨fuel - 1, by omega⟩
    have hcmem : c ∈ s.frames := by
      rw [hL]
      exact List.mem_append.mpr (Or.inr (List.mem_cons_self c B))
    have hc : lookupF s c.id = some c := lookupF_eq s c hcmem hnd
    by_cases hbrk : c.pinned = false ∧ s.accessed c.t c.uaddr = false
    · refine ⟨s, c, 0, ?_, by omega, hcmem, hbrk.1, rfl, rfl, rfl, hh, hbrk.2,
        fun a b h => h⟩
      rw [clock_sweep_step fuel' s c s0.id steps hc, if_pos hbrk]
      simp
    · have hVperm := ring_perm s.frames A c B D (g₁ :: R') hL hr
      have hndV : ((D ++ c :: g₁ :: R').map (fun x => x.id)).Nodup :=
        ((hVperm.map (fun x => x.id)).nodup_iff).mpr hnd
      have hne : g₁.id ≠ s0.id :=
        id_ne_of_head (D ++ c :: g₁ :: R') s0 g₁ hndV hs0
          (mem_tail_append_cons D c g₁ (g₁ :: R') (List.mem_cons_self g₁ R'))
      by_cases hp : c.pinned
      · -- pinned: advance without clearing
        have hDne : D ≠ [] := by
          intro hD
          subst hD
          have : c = s0 := by simpa using hs0
          rw [this, hs0p] at hp
          cases hp
        obtain ⟨g, Rr, hring, hcn⟩ := clock_next_ring s A c B hL hnd hh
        have hGr : g₁ :: (R' ++ D ++ [c]) = g :: Rr := by
          rw [← hring, hr]
          simp
        injection hGr with hg hRr
        subst hg
        obtain ⟨A', B', hL', hr'⟩ :=
          split_after_next s.frames A c B g₁ (R' ++ D ++ [c]) hL (by rw [hring, ← hRr])
        obtain ⟨s', w, j', heq, hj, hwmem, hwp, hfr, hmem, htr, hhand, haccw, hmono⟩ :=
          ih (D ++ [c]) ({ s with hand := .onId g₁.id }) g₁ (steps + 1) fuel' A' B'
            hL' (by rw [hr']; simp) hnd rfl
            (by rw [List.append_assoc]; simpa using hs0)
            hs0p
            (fun _ => hinv hDne)
            (by simp at hfuel; omega)
        refine ⟨s', w, j' + 1, ?_, by simp at hj ⊢; omega, hwmem, hwp, hfr, hmem, htr,
          hhand, haccw, hmono⟩
        rw [clock_sweep_step fuel' s c s0.id steps hc, if_neg hbrk]
        simp only [hp, if_true, hcn]
        simp only [handId, if_neg hne]
        have harith : steps + 1 + j' = steps + (j' + 1) := by omega
        rw [harith] at heq
        exact heq
      · -- unpinned with set bit: clear and advance
        have hacc : s.accessed c.t c.uaddr = true := by
          by_contra hcontra
          exact hbrk ⟨by simpa using hp, by simpa using hcontra⟩
        obtain ⟨g, Rr, hring, hcn⟩ :=
          clock_next_ring (clearAccessed s c) A c B hL hnd hh
        have hGr : g₁ :: (R' ++ D ++ [c]) = g :: Rr := by
          rw [← hring, hr]
          simp
        injection hGr with hg hRr
        subst hg
        obtain ⟨A', B', hL', hr'⟩ :=
          split_after_next s.frames A c B g₁ (R' ++ D ++ [c]) hL (by rw [hring, ← hRr])
        have hacc0 : ∀ hD : (D ++ [c]) ≠ [],
            (clearAccessed s c).accessed s0.t s0.uaddr = false := by
          intro _
          by_cases hD : D = []
          · subst hD
            have hc0 : c = s0 := by simpa using hs0
            rw [← hc0]
            exact clearAccessed_self s c
          · exact clearAccessed_mono s c s0.t s0.uaddr (hinv hD)
        obtain ⟨s', w, j', heq, hj, hwmem, hwp, hfr, hmem, htr, hhand, haccw, hmono⟩ :=
          ih (D ++ [c]) ({ clearAccessed s c with hand := .onId g₁.id }) g₁ (steps + 1)
            fuel' A' B' hL' (by rw [hr']; simp) hnd rfl
            (by rw [List.append_assoc]; simpa using hs0)
            hs0p
            hacc0
            (by simp at hfuel; omega)
        refine ⟨s', w, j' + 1, ?_, by simp at hj ⊢; omega, hwmem, hwp, hfr, hmem, htr,
          hhand, haccw, fun a b h => hmono a b (clearAccessed_mono s c a b h)⟩
        rw [clock_sweep_step fuel' s c s0.id steps hc, if_neg hbrk]
        simp only [hp, if_false, Bool.false_eq_true, hcn]
        simp only [handId, if_neg hne]
        have harith : steps + 1 + j' = steps + (j' + 1) := by omega
        rw [harith] at heq
        exact heq

/-- `clock_algorithm` on an empty registry: no victim, nothing touched,
no `clock_next` call. -/
theorem clock_algorithm_empty (s : FrameState) (h : s.frames = []) :
    clock_algorithm s = some (s, none, 0) := by
  simp [clock_algorithm, h]

/-- One unfolding of `clock_algorithm` on a non-empty registry. -/
theorem clock_algorithm_unfold (s : FrameState) (hne : s.frames.isEmpty = false) :
    clock_algorithm s =
      match handId (clock_next s).2 with
      | none => none
      | some f0 =>
        match clock_find_unpinned (s.frames.length + 1) (clock_next s).1 f0 f0 1 with
        | none => none
        | some (s₂, none, steps) => some (s₂, none, steps)
        | some (s₂, some cs, steps) =>
          match clock_sweep (s.frames.length + 1) s₂ cs cs steps with
          | none => none
          | some (s₃, victim, steps') =>
            match pin_in_state s₃ victim with
            | none => none
            | some s₄ => some (s₄, some victim, steps') := by
  simp only [clock_algorithm, hne, Bool.false_eq_true, if_false]

/-- The very first `clock_next` of a scan on a valid non-empty registry
lands on some record of the registry. -/
theorem clock_next_initial (s : FrameState) (hv : ValidState s) (hne : s.frames ≠ []) :
    ∃ (c₀ : FrameEntry) (A B : List FrameEntry),
      s.frames = A ++ c₀ :: B ∧
      clock_next s = ({ s with hand := .onId c₀.id }, .onId c₀.id) := by
  rcases hv.2 with hh | ⟨f, hf, hh⟩ | ⟨hemp, _⟩
  · obtain ⟨c₀, tl, hL⟩ := List.exists_cons_of_ne_nil hne
    refine ⟨c₀, [], tl, by simpa using hL, ?_⟩
    simp [clock_next, list_next, hh, hL, list_begin]
  · obtain ⟨A, B, hL⟩ := List.append_of_mem hf
    obtain ⟨g, R, hring, hcn⟩ := clock_next_ring s A f B hL hv.1 hh
    obtain ⟨A', B', hL', _⟩ := split_after_next s.frames A f B g R hL hring
    exact ⟨g, A', B', hL', hcn⟩
  · exact absurd hemp hne

/-- Two members of a registry with pairwise-distinct ids that share an
id are the same record. -/
theorem eq_of_mem_of_same_id (L : List FrameEntry) (x v : FrameEntry)
    (hx : x ∈ L) (hv : v ∈ L) (hnd : (L.map (fun e => e.id)).Nodup)
    (hid : x.id = v.id) : x = v :=
  List.inj_on_of_nodup_map hnd hx hv hid

/-- Master lemma for a successful clock scan.  On any valid registry
with at least one unpinned record, `clock_algorithm` terminates with at
most `2 · |frames|` calls to `clock_next` (two revolutions) and returns
the id of a record that was unpinned before the call; afterwards that
record is pinned and its accessed bit is clear, every other record is
untouched, memory and the in-flight counter are untouched, the hand
rests on the victim, and no accessed bit was ever set. -/
theorem clock_algorithm_found (s : FrameState) (hv : ValidState s)
    (h : ∃ fe ∈ s.frames, fe.pinned = false) :
    ∃ s' fe₀ n,
      clock_algorithm s = some (s', some fe₀.id, n) ∧
      fe₀ ∈ s.frames ∧ fe₀.pinned = false ∧
      n ≤ 2 * s.frames.length ∧
      s'.frames = s.frames.map
        (fun x => if x.id = fe₀.id then { x with pinned := true } else x) ∧
      s'.mem = s.mem ∧ s'.transition_frames = s.transition_frames ∧
      s'.hand = .onId fe₀.id ∧
      s'.accessed fe₀.t fe₀.uaddr = false ∧
      (∀ a b, s.accessed a b = false → s'.accessed a b = false) := by
  obtain ⟨fu, hfu, hfup⟩ := h
  have hne : s.frames ≠ [] := by
    intro hemp
    rw [hemp] at hfu
    cases hfu
  have hie : s.frames.isEmpty = false := by
    cases he : s.frames with
    | nil => exact absurd he hne
    | cons a l => simp [he]
  obtain ⟨c₀, A, B, hL, hcn⟩ := clock_next_initial s hv hne
  have hlen : (B ++ A).length + 1 = s.frames.length := by
    rw [hL]
    simp [List.length_append]
    omega
  have hperm := ring_perm s.frames A c₀ B [] (B ++ A) hL (by simp)
  have hfuV : fu ∈ ([] ++ c₀ :: (B ++ A)) := hperm.mem_iff.mpr hfu
  cases hscan : scanFirstUnpinned (c₀ :: (B ++ A)) with
  | none =>
    have := (scanFirstUnpinned_none (c₀ :: (B ++ A))).mp hscan fu (by simpa using hfuV)
    rw [this] at hfup
    cases hfup
  | some p =>
    obtain ⟨j, w⟩ := p
    obtain ⟨hwV, hwp, hjlen⟩ := scanFirstUnpinned_some (c₀ :: (B ++ A)) j w hscan
    have hwmem : w ∈ s.frames := hperm.mem_iff.mp (by simpa using hwV)
    have hfl := clock_find_unpinned_found c₀ (B ++ A) [] ({ s with hand := .onId c₀.id })
      c₀ 1 (s.frames.length + 1) A B j w hL (by simp) hv.1 rfl rfl hscan (by omega)
    obtain ⟨A₂, B₂, hL₂⟩ := List.append_of_mem hwmem
    have hlen₂ : (B₂ ++ A₂).length + 1 = s.frames.length := by
      rw [hL₂]
      simp [List.length_append]
      omega
    obtain ⟨s₃, v, j₂, heq, hj₂, hvmem, hvp, hfr, hsmem, htr, hhand, haccv, hmono⟩ :=
      clock_sweep_spec w (B₂ ++ A₂) [] ({ s with hand := .onId w.id }) w (1 + j)
        (s.frames.length + 1) A₂ B₂ hL₂ (by simp) hv.1 rfl rfl hwp
        (fun hD => absurd rfl hD) (by omega)
    have hvs : v ∈ s.frames := hvmem
    have hnd₃ : (s₃.frames.map (fun e => e.id)).Nodup := by
      rw [hfr]
      exact hv.1
    have hlk : lookupF s₃ v.id = some v := find_id_eq s₃.frames v (hfr ▸ hvs) hnd₃
    rw [clock_algorithm_unfold s hie, hcn]
    simp only [handId]
    rw [hfl]
    dsimp only
    rw [heq]
    simp only [pin_in_state, hlk, frame_pin_no_lock, hvp, Bool.false_eq_true, if_false]
    refine ⟨updateF s₃ v.id (fun _ => { v with pinned := true }), v, 1 + j + j₂,
      rfl, hvs, hvp, ?_, ?_, hsmem, htr, hhand, haccv, hmono⟩
    · simp only [List.length_append, List.length_cons] at hlen hlen₂ hjlen hj₂
      omega
    · show s₃.frames.map (fun fe => if fe.id = v.id then { v with pinned := true } else fe)
        = s.frames.map (fun x => if x.id = v.id then { x with pinned := true } else x)
      rw [hfr]
      refine List.map_congr_left ?_
      intro x hx
      by_cases hxi : x.id = v.id
      · have : x = v := eq_of_mem_of_same_id s.frames x v hx hvs hv.1 hxi
        rw [this]
      · simp [hxi]

/-- C2: on every valid registry holding at least one unpinned frame
(registry lock held), `clock_algorithm` terminates — its loops never
exhaust their fuel — using at most two full revolutions of the
registry (at most `2 · |frames|` `clock_next` calls), and returns a
frame that is pinned at return. -/
theorem c2_clock_terminates_two_revolutions (s : FrameState) (hv : ValidState s)
    (h : ∃ fe ∈ s.frames, fe.pinned = false) :
    ∃ s' vid n, clock_algorithm s = some (s', some vid, n) ∧
      n ≤ 2 * s.frames.length ∧
      (∃ fe ∈ s'.frames, fe.id = vid ∧ fe.pinned = true) ∧
      s'.frames.map (fun fe => fe.id) = s.frames.map (fun fe => fe.id) := by
  obtain ⟨s', fe₀, n, heq, hmem, hp, hn, hfr, _, _, _, _, _⟩ :=
    clock_algorithm_found s hv h
  refine ⟨s', fe₀.id, n, heq, hn, ?_, ?_⟩
  · refine ⟨{ fe₀ with pinned := true }, ?_, rfl, rfl⟩
    rw [hfr]
    have := List.mem_map_of_mem
      (fun x => if x.id = fe₀.id then { x with pinned := true } else x) hmem
    simpa using this
  · rw [hfr, List.map_map]
    refine List.map_congr_left ?_
    intro x hx
    by_cases hxi : x.id = fe₀.id <;> simp [hxi]

/-- Witness for C2 on a concrete two-frame registry with one unpinned
frame. -/
theorem c2_clock_terminates_two_revolutions_witness :
    ∃ s' vid n, clock_algorithm mixedState = some (s', some vid, n) ∧
      n ≤ 2 * mixedState.frames.length ∧
      (∃ fe ∈ s'.frames, fe.id = vid ∧ fe.pinned = true) ∧
      s'.frames.map (fun fe => fe.id) = mixedState.frames.map (fun fe => fe.id) :=
  c2_clock_terminates_two_revolutions mixedState (by decide)
    ⟨exFrame 2 false, by decide, rfl⟩

/-- C4: on every valid registry that is empty or fully pinned (registry
lock held), `clock_algorithm` returns no victim and leaves the registry
unmodified — same membership, pinned flags and owner fields (the frame
list is equal), and the same accessed bits, memory, and in-flight
counter. -/
theorem c4_no_victim_registry_unmodified (s : FrameState) (hv : ValidState s)
    (h : s.frames = [] ∨ ∀ fe ∈ s.frames, fe.pinned = true) :
    ∃ s' n, clock_algorithm s = some (s', none, n) ∧
      s'.frames = s.frames ∧ s'.accessed = s.accessed ∧
      s'.mem = s.mem ∧ s'.transition_frames = s.transition_frames := by
  by_cases hemp : s.frames = []
  · exact ⟨s, 0, clock_algorithm_empty s hemp, rfl, rfl, rfl, rfl⟩
  · have hall : ∀ fe ∈ s.frames, fe.pinned = true := by
      rcases h with he | ha
      · exact absurd he hemp
      · exact ha
    have hie : s.frames.isEmpty = false := by
      cases he : s.frames with
      | nil => exact absurd he hemp
      | cons a l => simp [he]
    obtain ⟨c₀, A, B, hL, hcn⟩ := clock_next_initial s hv hemp
    have hlen : (B ++ A).length + 1 = s.frames.length := by
      rw [hL]
      simp [List.length_append]
      omega
    have hperm := ring_perm s.frames A c₀ B [] (B ++ A) hL (by simp)
    have hfl := clock_find_unpinned_all_pinned c₀ (B ++ A) []
      ({ s with hand := .onId c₀.id }) c₀ 1 (s.frames.length + 1) A B hL (by simp)
      hv.1 rfl rfl
      (fun x hx => hall x (hperm.mem_iff.mp (by simpa using hx)))
      (by omega)
    rw [clock_algorithm_unfold s hie, hcn]
    simp only [handId]
    rw [hfl]
    exact ⟨{ s with hand := .onId c₀.id }, 1 + (B ++ A).length + 1, rfl, rfl, rfl, rfl, rfl⟩

/-- Witness for C4 on a concrete fully pinned registry. -/
theorem c4_no_victim_registry_unmodified_witness :
    ∃ s' n, clock_algorithm allPinnedState = some (s', none, n) ∧
      s'.frames = allPinnedState.frames ∧ s'.accessed = allPinnedState.accessed ∧
      s'.mem = allPinnedState.mem ∧
      s'.transition_frames = allPinnedState.transition_frames :=
  c4_no_victim_registry_unmodified allPinnedState (by decide) (Or.inr (by decide))

/-- Updating one record of a registry by an id-preserving map keeps the
id list. -/
theorem map_update_ids (L : List FrameEntry) (g : FrameEntry → FrameEntry) (i : Nat)
    (hg : ∀ x, x.id = i → (g x).id = x.id) :
    (L.map (fun x => if x.id = i then g x else x)).map (fun e => e.id) =
      L.map (fun e => e.id) := by
  rw [List.map_map]
  refine List.map_congr_left ?_
  intro x hx
  by_cases h : x.id = i
  · simp [Function.comp, h, hg x h]
  · simp [Function.comp, h]

/-- An unpinned record equals itself with the pinned flag put to
`false`. -/
theorem pinned_false_eta (fe : FrameEntry) (hp : fe.pinned = false) :
    { fe with pinned := false } = fe := by
  obtain ⟨a, b, c, d, e⟩ := fe
  simp only at hp
  rw [hp]

/-- C5: when the `page_evict` callback of an eviction fails, the chosen
victim is unpinned again, keeps its original owner fields (the record
read back by id is exactly the pre-eviction record), stays registered —
the frame list is restored verbatim — the in-flight counter returns to
its starting value, and `frame_evict` reports failure with `none`
without retrying. -/
theorem c5_failed_eviction_restores_frame (s : FrameState) (t u : Nat)
    (hv : ValidState s) (h : ∃ fe ∈ s.frames, fe.pinned = false) :
    ∃ s' fe₀, frame_evict s t u false = some (s', none) ∧
      fe₀ ∈ s.frames ∧ fe₀.pinned = false ∧
      lookupF s' fe₀.id = some fe₀ ∧
      s'.frames = s.frames ∧
      s'.transition_frames = s.transition_frames := by
  obtain ⟨s₁, fe₀, n, heq, hmem, hp0, hn, hfr, hsm, htr, hhand, hacc, hmono⟩ :=
    clock_algorithm_found s hv h
  have hpmem : ({ fe₀ with pinned := true }) ∈ s₁.frames := by
    rw [hfr]
    have := List.mem_map_of_mem
      (fun x => if x.id = fe₀.id then { x with pinned := true } else x) hmem
    simpa using this
  have hnd₁ : (s₁.frames.map (fun e => e.id)).Nodup := by
    rw [hfr, map_update_ids s.frames (fun x => { x with pinned := true }) fe₀.id
      (fun x _ => rfl)]
    exact hv.1
  have hlk₂ : lookupF { s₁ with transition_frames := s₁.transition_frames + 1 } fe₀.id =
      some { fe₀ with pinned := true } :=
    find_id_eq s₁.frames { fe₀ with pinned := true } hpmem hnd₁
  have hfu' : frame_unpin false { fe₀ with pinned := true } =
      some { fe₀ with pinned := false } := rfl
  have hunp : unpin_in_state { s₁ with transition_frames := s₁.transition_frames + 1 }
      fe₀.id false =
      some (updateF { s₁ with transition_frames := s₁.transition_frames + 1 } fe₀.id
        (fun _ => { fe₀ with pinned := false })) := by
    simp only [unpin_in_state, hlk₂, hfu']
  have hframes₄ : (updateF { s₁ with transition_frames := s₁.transition_frames + 1 }
      fe₀.id (fun _ => { fe₀ with pinned := false })).frames = s.frames := by
    show s₁.frames.map (fun fe => if fe.id = fe₀.id then { fe₀ with pinned := false }
      else fe) = s.frames
    rw [hfr, List.map_map]
    have hid : ∀ x ∈ s.frames,
        ((fun fe => if fe.id = fe₀.id then { fe₀ with pinned := false } else fe) ∘
          (fun x => if x.id = fe₀.id then { x with pinned := true } else x)) x = x := by
      intro x hx
      by_cases hxi : x.id = fe₀.id
      · have hx0 : x = fe₀ := eq_of_mem_of_same_id s.frames x fe₀ hx hmem hv.1 hxi
        subst hx0
        simp [Function.comp, hxi, pinned_false_eta x hp0]
      · simp [Function.comp, hxi]
    rw [List.map_congr_left hid]
    exact List.map_id s.frames
  refine ⟨{ updateF { s₁ with transition_frames := s₁.transition_frames + 1 } fe₀.id
      (fun _ => { fe₀ with pinned := false }) with
      transition_frames :=
        (updateF { s₁ with transition_frames := s₁.transition_frames + 1 } fe₀.id
          (fun _ => { fe₀ with pinned := false })).transition_frames - 1 },
    fe₀, ?_, hmem, hp0, ?_, ?_, ?_⟩
  · simp only [frame_evict, heq, Bool.false_eq_true, if_false, hunp]
  · show (updateF { s₁ with transition_frames := s₁.transition_frames + 1 } fe₀.id
      (fun _ => { fe₀ with pinned := false })).frames.find?
        (fun fe => fe.id == fe₀.id) = some fe₀
    rw [hframes₄]
    exact find_id_eq s.frames fe₀ hmem hv.1
  · exact hframes₄
  · show (updateF { s₁ with transition_frames := s₁.transition_frames + 1 } fe₀.id
      (fun _ => { fe₀ with pinned := false })).transition_frames - 1 =
      s.transition_frames
    show s₁.transition_frames + 1 - 1 = s.transition_frames
    rw [htr]
    ring

/-- Witness for C5 on a concrete registry with one unpinned frame. -/
theorem c5_failed_eviction_restores_frame_witness :
    ∃ s' fe₀, frame_evict mixedState 9 90 false = some (s', none) ∧
      fe₀ ∈ mixedState.frames ∧ fe₀.pinned = false ∧
      lookupF s' fe₀.id = some fe₀ ∧
      s'.frames = mixedState.frames ∧
      s'.transition_frames = mixedState.transition_frames :=
  c5_failed_eviction_restores_frame mixedState 9 90 (by decide)
    ⟨exFrame 2 false, by decide, rfl⟩

/-- C6: a `frame_get` with the zero-fill flag that is satisfied by
evicting an existing frame returns a frame whose entire page is zero,
whatever bytes the evicted owner had stored there; the frame is
repurposed in place for the requesting thread and still pinned. -/
theorem c6_zero_fill_after_eviction (s : FrameState) (cur u nid : Nat)
    (hv : ValidState s) (h : ∃ fe ∈ s.frames, fe.pinned = false) :
    ∃ s'' fe₀, frame_get s cur u ⟨true⟩ none true nid = some (s'', some fe₀.id) ∧
      fe₀ ∈ s.frames ∧
      (∀ off, off < PGSIZE → s''.mem (fe₀.kaddr + off) = 0) ∧
      (∃ fe' ∈ s''.frames, fe'.id = fe₀.id ∧ fe'.t = cur ∧ fe'.uaddr = u ∧
        fe'.kaddr = fe₀.kaddr ∧ fe'.pinned = true) := by
  obtain ⟨s₁, fe₀, n, heq, hmem, hp0, hn, hfr, hsm, htr, hhand, hacc, hmono⟩ :=
    clock_algorithm_found s hv h
  have hframes₄ : (updateF { s₁ with transition_frames := s₁.transition_frames + 1 }
      fe₀.id (fun fe => { fe with t := cur, uaddr := u })).frames =
      s.frames.map (fun x => if x.id = fe₀.id then
        { fe₀ with t := cur, uaddr := u, pinned := true }
        else x) := by
    show s₁.frames.map (fun fe => if fe.id = fe₀.id then
      { fe with t := cur, uaddr := u } else fe) = _
    rw [hfr, List.map_map]
    refine List.map_congr_left ?_
    intro x hx
    by_cases hxi : x.id = fe₀.id
    · have hx0 : x = fe₀ := eq_of_mem_of_same_id s.frames x fe₀ hx hmem hv.1 hxi
      subst hx0
      simp [Function.comp, hxi]
    · simp [Function.comp, hxi]
  have hnd₄ : ((updateF { s₁ with transition_frames := s₁.transition_frames + 1 }
      fe₀.id (fun fe => { fe with t := cur, uaddr := u })).frames.map
        (fun e => e.id)).Nodup := by
    rw [hframes₄, map_update_ids s.frames
      (fun _ => { fe₀ with t := cur, uaddr := u, pinned := true })
      fe₀.id (fun x hx => hx.symm)]
    exact hv.1
  have hmem₄ : ({ fe₀ with t := cur, uaddr := u, pinned := true } : FrameEntry) ∈
      (updateF { s₁ with transition_frames := s₁.transition_frames + 1 } fe₀.id
        (fun fe => { fe with t := cur, uaddr := u })).frames := by
    rw [hframes₄]
    have := List.mem_map_of_mem (fun x => if x.id = fe₀.id then
      { fe₀ with t := cur, uaddr := u, pinned := true }
      else x) hmem
    simpa using this
  have hevict : frame_evict s cur u true =
      some ({ updateF { s₁ with transition_frames := s₁.transition_frames + 1 } fe₀.id
        (fun fe => { fe with t := cur, uaddr := u }) with
        transition_frames :=
          (updateF { s₁ with transition_frames := s₁.transition_frames + 1 } fe₀.id
            (fun fe => { fe with t := cur, uaddr := u })).transition_frames - 1 },
      some fe₀.id) := by
    simp only [frame_evict, heq, if_true]
  have hlk₄ : lookupF { updateF { s₁ with transition_frames := s₁.transition_frames + 1 }
      fe₀.id (fun fe => { fe with t := cur, uaddr := u }) with
      transition_frames :=
        (updateF { s₁ with transition_frames := s₁.transition_frames + 1 } fe₀.id
          (fun fe => { fe with t := cur, uaddr := u })).transition_frames - 1 }
      fe₀.id =
      some { fe₀ with t := cur, uaddr := u, pinned := true } :=
    find_id_eq _ _ hmem₄ hnd₄
  refine ⟨{ { updateF { s₁ with transition_frames := s₁.transition_frames + 1 } fe₀.id
        (fun fe => { fe with t := cur, uaddr := u }) with
      transition_frames :=
        (updateF { s₁ with transition_frames := s₁.transition_frames + 1 } fe₀.id
          (fun fe => { fe with t := cur, uaddr := u })).transition_frames - 1 } with
      mem := fun a =>
        if ({ fe₀ with t := cur, uaddr := u, pinned := true } : FrameEntry).kaddr ≤ a ∧
            a < ({ fe₀ with t := cur, uaddr := u, pinned := true } : FrameEntry).kaddr + PGSIZE
        then 0
        else ({ updateF { s₁ with transition_frames := s₁.transition_frames + 1 } fe₀.id
            (fun fe => { fe with t := cur, uaddr := u }) with
          transition_frames :=
            (updateF { s₁ with transition_frames := s₁.transition_frames + 1 } fe₀.id
              (fun fe => { fe with t := cur, uaddr := u })).transition_frames - 1 }).mem a },
    fe₀, ?_, hmem, ?_, ?_⟩
  · simp only [frame_get, hevict, hlk₄, if_true]
  · intro off hoff
    show (if fe₀.kaddr ≤ fe₀.kaddr + off ∧ fe₀.kaddr + off < fe₀.kaddr + PGSIZE
      then 0 else _) = 0
    rw [if_pos ⟨Nat.le_add_right _ _, Nat.add_lt_add_left hoff _⟩]
  · refine ⟨{ fe₀ with t := cur, uaddr := u, pinned := true }, ?_, rfl, rfl, rfl, rfl, rfl⟩
    exact hmem₄

/-- Witness for C6: evicting from a registry whose memory holds
non-zero bytes everywhere still hands out an all-zero page. -/
theorem c6_zero_fill_after_eviction_witness :
    ∃ s'' fe₀, frame_get mixedState 9 90 ⟨true⟩ none true 77 = some (s'', some fe₀.id) ∧
      fe₀ ∈ mixedState.frames ∧
      (∀ off, off < PGSIZE → s''.mem (fe₀.kaddr + off) = 0) ∧
      (∃ fe' ∈ s''.frames, fe'.id = fe₀.id ∧ fe'.t = 9 ∧ fe'.uaddr = 90 ∧
        fe'.kaddr = fe₀.kaddr ∧ fe'.pinned = true) :=
  c6_zero_fill_after_eviction mixedState 9 90 77 (by decide)
    ⟨exFrame 2 false, by decide, rfl⟩

/-- Membership in the registry after `list_remove` of one record. -/
theorem mem_filter_ne (L : List FrameEntry) (fid : Nat) (fe : FrameEntry) :
    fe ∈ L.filter (fun x => x.id != fid) ↔ fe ∈ L ∧ fe.id ≠ fid := by
  simp [List.mem_filter]

/-- The removed id is gone from the registry's id list. -/
theorem not_mem_ids_filter (L : List FrameEntry) (fid : Nat) :
    fid ∉ (L.filter (fun x => x.id != fid)).map (fun e => e.id) := by
  intro h
  obtain ⟨x, hx, hxid⟩ := List.mem_map.mp h
  exact ((mem_filter_ne L fid x).mp hx).2 hxid

/-- Distinctness of ids survives the removal. -/
theorem nodup_ids_filter (L : List FrameEntry) (fid : Nat)
    (hnd : (L.map (fun e => e.id)).Nodup) :
    ((L.filter (fun x => x.id != fid)).map (fun e => e.id)).Nodup :=
  List.Nodup.sublist (List.Sublist.map _ (List.filter_sublist L)) hnd

/-- C7: removing a frame record with `clock_safe_frame_remove` (as used
by `frame_free` and `frame_clear`) removes exactly that record, and if
the clock hand was on it, the hand is advanced before removal so that
afterwards the hand sits on a record still present (or is safely
wrapped, landing on the list start or — for a now-empty registry — its
sentinel): the resulting state is again valid and the hand never
references the removed record, so the next scan cannot dereference it. -/
theorem c7_hand_safe_removal (s : FrameState) (fid : Nat)
    (hv : ValidState s) (hm : fid ∈ idsOf s) :
    ValidState (clock_safe_frame_remove s fid) ∧
    fid ∉ idsOf (clock_safe_frame_remove s fid) ∧
    (clock_safe_frame_remove s fid).hand ≠ .onId fid ∧
    (∀ fe ∈ (clock_safe_frame_remove s fid).frames, fe ∈ s.frames ∧ fe.id ≠ fid) ∧
    (∀ fe ∈ s.frames, fe.id ≠ fid → fe ∈ (clock_safe_frame_remove s fid).frames) := by
  obtain ⟨f, hf, hfid⟩ := List.mem_map.mp hm
  have hnd' := nodup_ids_filter s.frames fid hv.1
  have hmem' : ∀ fe ∈ (s.frames.filter (fun x => x.id != fid)), fe ∈ s.frames ∧ fe.id ≠ fid :=
    fun fe hfe => (mem_filter_ne s.frames fid fe).mp hfe
  have hmem'' : ∀ fe ∈ s.frames, fe.id ≠ fid →
      fe ∈ s.frames.filter (fun x => x.id != fid) :=
    fun fe hfe hne => (mem_filter_ne s.frames fid fe).mpr ⟨hfe, hne⟩
  by_cases hh : s.hand = .onId fid
  · obtain ⟨A, B, hL⟩ := List.append_of_mem hf
    have hfa : f.id ∉ A.map (fun x => x.id) := not_mem_ids_left A f B (hL ▸ hv.1)
    cases B with
    | cons g B' =>
      have hnx : list_next s.frames s.hand = .onId g.id := by
        rw [hh, ← hfid, hL]
        exact nextAfter_eq_cons A f g B' hfa
      have hgid : g.id ≠ fid := by
        intro he
        have hndL := hv.1
        rw [hL, List.map_append, List.map_cons] at hndL
        rcases List.nodup_append.mp hndL with ⟨_, hnd2, _⟩
        rw [List.nodup_cons] at hnd2
        exact hnd2.1 (by
          rw [hfid, ← he]
          exact List.mem_map_of_mem (fun x => x.id) (List.mem_cons_self g B'))
      have hgmem : g ∈ s.frames.filter (fun x => x.id != fid) :=
        hmem'' g (by rw [hL]; simp) hgid
      simp only [clock_safe_frame_remove, if_pos hh, hnx]
      have hnt : (HandPos.onId g.id) ≠ .tail := by simp
      rw [if_neg hnt]
      refine ⟨⟨hnd', Or.inr (Or.inl ⟨g, hgmem, rfl⟩)⟩, not_mem_ids_filter s.frames fid,
        ?_, hmem', hmem''⟩
      intro he
      injection he with he'
      exact hgid he'
    | nil =>
      have hnx : list_next s.frames s.hand = .tail := by
        rw [hh, ← hfid, hL]
        exact nextAfter_eq_last A f hfa
      simp only [clock_safe_frame_remove, if_pos hh, hnx, eq_self_iff_true, if_true]
      have hnm := not_mem_ids_filter s.frames fid
      cases hflt : s.frames.filter (fun x => x.id != fid) with
      | nil =>
        rw [hflt] at hnd' hmem' hmem'' hnm
        refine ⟨⟨by simp, Or.inr (Or.inr ⟨rfl, rfl⟩)⟩, ?_, ?_, hmem', hmem''⟩
        · exact hnm
        · intro he
          simp [list_begin] at he
      | cons c rest =>
        rw [hflt] at hnd' hmem' hmem'' hnm
        have hcmem : c ∈ c :: rest := List.mem_cons_self c rest
        have hcid : c.id ≠ fid := (hmem' c hcmem).2
        refine ⟨⟨hnd', Or.inr (Or.inl ⟨c, hcmem, rfl⟩)⟩, hnm, ?_, hmem', hmem''⟩
        show list_begin (c :: rest) ≠ .onId fid
        simp only [list_begin]
        intro he
        injection he with he'
        exact hcid he'
  · simp only [clock_safe_frame_remove, if_neg hh]
    refine ⟨⟨hnd', ?_⟩, not_mem_ids_filter s.frames fid, hh, hmem', hmem''⟩
    rcases hv.2 with hhd | ⟨fe, hfe, hhe⟩ | ⟨hemp, hht⟩
    · exact Or.inl hhd
    · have hfene : fe.id ≠ fid := by
        intro he
        exact hh (by rw [hhe, he])
      exact Or.inr (Or.inl ⟨fe, hmem'' fe hfe hfene, hhe⟩)
    · exact Or.inr (Or.inr ⟨by rw [hemp]; rfl, hht⟩)

/-- Witness for C7: removing the record the hand currently references
in a two-frame registry. -/
theorem c7_hand_safe_removal_witness :
    ValidState (clock_safe_frame_remove allPinnedState 2) ∧
    2 ∉ idsOf (clock_safe_frame_remove allPinnedState 2) ∧
    (clock_safe_frame_remove allPinnedState 2).hand ≠ .onId 2 ∧
    (∀ fe ∈ (clock_safe_frame_remove allPinnedState 2).frames,
      fe ∈ allPinnedState.frames ∧ fe.id ≠ 2) ∧
    (∀ fe ∈ allPinnedState.frames, fe.id ≠ 2 →
      fe ∈ (clock_safe_frame_remove allPinnedState 2).frames) :=
  c7_hand_safe_removal allPinnedState 2 (by decide) (by decide)

/-- Number of evictions currently in their callback phase. -/
def ncb : List EvPc → Nat
  | [] => 0
  | .callback :: r => ncb r + 1
  | _ :: r => ncb r

/-- Starting an eviction's callback phase raises the callback count. -/
theorem ncb_set_callback : ∀ (l : List EvPc) (i : Nat), l.get? i = some .start →
    ncb (l.set i .callback) = ncb l + 1 := by
  intro l
  induction l with
  | nil => intro i h; cases h
  | cons a r ih =>
    intro i h
    cases i with
    | zero =>
      have ha : a = .start := Option.some.inj h
      subst ha
      rfl
    | succ i =>
      have h' : r.get? i = some .start := h
      cases a <;> simp only [List.set, ncb, ih i h']

/-- Finishing an eviction's callback phase lowers the callback count. -/
theorem ncb_set_done : ∀ (l : List EvPc) (i : Nat), l.get? i = some .callback →
    ncb l = ncb (l.set i .done) + 1 := by
  intro l
  induction l with
  | nil => intro i h; cases h
  | cons a r ih =>
    intro i h
    cases i with
    | zero =>
      have ha : a = .callback := Option.some.inj h
      subst ha
      rfl
    | succ i =>
      have h' : r.get? i = some .callback := h
      cases a <;> simp only [List.set, ncb, ih i h']

/-- Reading an untouched slot after a `set`. -/
theorem get_set_ne : ∀ (l : List EvPc) (i j : Nat) (b : EvPc), i ≠ j →
    (l.set i b).get? j = l.get? j := by
  intro l
  induction l with
  | nil => intro i j b _; rfl
  | cons a r ih =>
    intro i j b hne
    cases i with
    | zero =>
      cases j with
      | zero => exact absurd rfl hne
      | succ j => rfl
    | succ i =>
      cases j with
      | zero => rfl
      | succ j => exact ih i j b (fun he => hne (by rw [he]))

/-- Reading the slot just written by a `set`. -/
theorem get_set_self : ∀ (l : List EvPc) (i : Nat) (x b : EvPc), l.get? i = some x →
    (l.set i b).get? i = some b := by
  intro l
  induction l with
  | nil => intro i x b h; cases h
  | cons a r ih =>
    intro i x b h
    cases i with
    | zero => rfl
    | succ i => exact ih i x b h

/-- A zero callback count means no eviction is in its callback phase. -/
theorem ncb_zero : ∀ (l : List EvPc), ncb l = 0 → EvPc.callback ∉ l := by
  intro l
  induction l with
  | nil => intro _ h; cases h
  | cons a r ih =>
    intro h hmem
    cases a with
    | callback => exact Nat.succ_ne_zero _ h
    | start =>
      rcases List.mem_cons.mp hmem with he | hm
      · cases he
      · exact ih h hm
    | done =>
      rcases List.mem_cons.mp hmem with he | hm
      · cases he
      · exact ih h hm

/-- Invariant of the quiescence protocol: `transition_frames` counts the
evictions in their callback phase; every eviction recorded in the ghost
`pre` has at least incremented the counter; and once the teardown thread
is past its wait (woken, removing, or returned), every eviction that was
in flight when it acquired the registry lock has reconciled. -/
def TInv (c : TConfig) : Prop :=
  c.counter = ncb c.evs ∧
  (∀ i ∈ c.pre, c.evs.get? i = some .callback ∨ c.evs.get? i = some .done) ∧
  ((c.cl = .ready ∨ c.cl = .removing ∨ c.cl = .cdone) →
    ∀ i ∈ c.pre, c.evs.get? i = some .done)

/-- The callback count of a fresh eviction pool is zero. -/
theorem ncb_replicate_start : ∀ k, ncb (List.replicate k .start) = 0 := by
  intro k
  induction k with
  | zero => rfl
  | succ k ih => simpa [List.replicate, ncb] using ih

/-- The initial configuration satisfies the invariant. -/
theorem tinv_init (k : Nat) : TInv (tinit k) := by
  refine ⟨by simp [tinit, ncb_replicate_start], ?_, ?_⟩
  · intro i hi
    cases hi
  · intro hcl
    rcases hcl with h | h | h <;> cases h

/-- Every protocol step preserves the invariant. -/
theorem tinv_step (c : TConfig) (a : TAct) (h : TInv c) : TInv (tstep c a) := by
  obtain ⟨h1, h2, h3⟩ := h
  cases a with
  | incr i =>
    by_cases hg : c.cl ≠ .removing ∧ c.evs.get? i = some .start
    · simp only [tstep, if_pos hg]
      refine ⟨?_, ?_, ?_⟩
      · show c.counter + 1 = ncb (c.evs.set i .callback)
        rw [ncb_set_callback c.evs i hg.2, h1]
      · intro j hj
        have hne : i ≠ j := by
          intro he
          rcases h2 j hj with hc | hc <;>
            · rw [← he, hg.2] at hc
              exact EvPc.noConfusion (Option.some.inj hc)
        rw [get_set_ne c.evs i j .callback hne]
        exact h2 j hj
      · intro hcl j hj
        have hd := h3 hcl j hj
        have hne : i ≠ j := by
          intro he
          rw [← he, hg.2] at hd
          exact EvPc.noConfusion (Option.some.inj hd)
        rw [get_set_ne c.evs i j .callback hne]
        exact hd
    · simp only [tstep, if_neg hg]
      exact ⟨h1, h2, h3⟩
  | decr i =>
    by_cases hg : c.cl ≠ .removing ∧ c.evs.get? i = some .callback
    · simp only [tstep, if_pos hg]
      have hcount : c.counter = ncb (c.evs.set i .done) + 1 := by
        rw [h1]
        exact ncb_set_done c.evs i hg.2
      refine ⟨?_, ?_, ?_⟩
      · show c.counter - 1 = ncb (c.evs.set i .done)
        omega
      · intro j hj
        by_cases hne : i = j
        · subst hne
          exact Or.inr (get_set_self c.evs i .callback .done hg.2)
        · rw [get_set_ne c.evs i j .done hne]
          exact h2 j hj
      · intro hcl j hj
        by_cases hcnd : c.counter - 1 = 0 ∧ c.cl = .waiting
        · -- the decrement reaches zero and wakes the waiting teardown
          have hzero : ncb (c.evs.set i .done) = 0 := by omega
          by_cases hne : i = j
          · subst hne
            exact get_set_self c.evs i .callback .done hg.2
          · rw [get_set_ne c.evs i j .done hne]
            rcases h2 j hj with hc | hc
            · exfalso
              refine ncb_zero _ hzero ?_
              have : (c.evs.set i .done).get? j = some .callback := by
                rw [get_set_ne c.evs i j .done hne]
                exact hc
              exact List.get?_mem this
            · exact hc
        · -- teardown state unchanged by this decrement
          have hcl' : c.cl = .ready ∨ c.cl = .removing ∨ c.cl = .cdone := by
            simp only [if_neg hcnd] at hcl
            exact hcl
          have hd := h3 hcl' j hj
          have hne : i ≠ j := by
            intro he
            rw [← he, hg.2] at hd
            exact EvPc.noConfusion (Option.some.inj hd)
          rw [get_set_ne c.evs i j .done hne]
          exact hd
    · simp only [tstep, if_neg hg]
      exact ⟨h1, h2, h3⟩
  | tstart =>
    by_cases hg : c.cl = .idle
    · simp only [tstep, if_pos hg]
      have hpre : ∀ j, j ∈ (List.range c.evs.length).filter
          (fun i => c.evs.get? i = some .callback) → c.evs.get? j = some .callback := by
        intro j hj
        have := (List.mem_filter.mp hj).2
        exact of_decide_eq_true this
      by_cases hcnt : c.counter > 0
      · rw [if_pos hcnt]
        refine ⟨h1, fun j hj => Or.inl (hpre j hj), ?_⟩
        intro hcl
        rcases hcl with h' | h' | h' <;> cases h'
      · rw [if_neg hcnt]
        have hzero : ncb c.evs = 0 := by omega
        refine ⟨h1, fun j hj => Or.inl (hpre j hj), ?_⟩
        intro _ j hj
        exfalso
        exact ncb_zero c.evs hzero (List.get?_mem (hpre j hj))
    · simp only [tstep, if_neg hg]
      exact ⟨h1, h2, h3⟩
  | resume =>
    by_cases hg : c.cl = .ready
    · simp only [tstep, if_pos hg]
      exact ⟨h1, h2, fun _ => h3 (Or.inl hg)⟩
    · simp only [tstep, if_neg hg]
      exact ⟨h1, h2, h3⟩
  | finish =>
    by_cases hg : c.cl = .removing
    · simp only [tstep, if_pos hg]
      exact ⟨h1, h2, fun _ => h3 (Or.inr (Or.inl hg))⟩
    · simp only [tstep, if_neg hg]
      exact ⟨h1, h2, h3⟩

/-- The invariant holds along every schedule. -/
theorem tinv_run (c : TConfig) (h : TInv c) : ∀ acts : List TAct, TInv (trun c acts) := by
  intro acts
  induction acts generalizing c with
  | nil => exact h
  | cons a rest ih => exact ih (tstep c a) (tinv_step c a h)

/-- A schedule in which the teardown thread blocks behind one eviction
and a second eviction begins while it is waiting: eviction 0 starts its
callback, `frame_clear` runs and must wait, eviction 0 reconciles and
broadcasts, eviction 1 starts its callback, and the woken teardown —
whose `if (transition_frames > 0) cond_wait (…)` does not re-check the
counter — proceeds to its removals. -/
def c1Trace : List TAct := [.incr 0, .tstart, .decr 0, .incr 1, .resume]

/-- Counterexample for C1 as stated: after `c1Trace` the teardown thread
of `frame_clear` is performing its removals while the in-flight eviction
counter is 1 and eviction 1 is still in its unreconciled callback phase
— so the caller does begin removing frames while the counter is
nonzero, and it did not wait until the counter was zero. -/
theorem c1_literal_counterexample :
    (trun (tinit 2) c1Trace).cl = .removing ∧
    (trun (tinit 2) c1Trace).counter = 1 ∧
    (trun (tinit 2) c1Trace).evs.get? 1 = some .callback := by
  decide

/-- C1 amended: `frame_clear` performs all its removals while holding
the registry lock — no eviction can publish or retire an in-flight
callback during the removal phase — and every eviction whose callback
was already in flight at the moment `frame_clear` acquired the registry
lock (the ghost set `pre`) has been reconciled before the removals
begin; but an eviction that starts during the wait may leave the counter
nonzero when removals begin, as the counterexample shows. -/
theorem c1_teardown_waits_for_prior_evictions (k : Nat) (acts : List TAct) :
    (((trun (tinit k) acts).cl = .removing ∨ (trun (tinit k) acts).cl = .cdone) →
      ∀ i ∈ (trun (tinit k) acts).pre,
        (trun (tinit k) acts).evs.get? i = some .done) ∧
    ((trun (tinit k) acts).cl = .removing →
      ∀ i, tstep (trun (tinit k) acts) (.incr i) = trun (tinit k) acts ∧
        tstep (trun (tinit k) acts) (.decr i) = trun (tinit k) acts) := by
  have hinv := tinv_run (tinit k) (tinv_init k) acts
  constructor
  · intro hcl i hi
    refine hinv.2.2 ?_ i hi
    rcases hcl with h | h
    · exact Or.inr (Or.inl h)
    · exact Or.inr (Or.inr h)
  · intro hcl i
    constructor
    · show tstep _ (.incr i) = _
      simp only [tstep]
      rw [if_neg (fun hg => hg.1 hcl)]
    · show tstep _ (.decr i) = _
      simp only [tstep]
      rw [if_neg (fun hg => hg.1 hcl)]

/-- Witness for the amended C1: on a schedule where the teardown waited
behind eviction 0 and then proceeded, eviction 0 — the only eviction in
flight when the teardown acquired the lock — is reconciled before the
removals, and eviction steps are blocked during the removal phase. -/
theorem c1_teardown_waits_for_prior_evictions_witness :
    (trun (tinit 2) [.incr 0, .tstart, .decr 0, .incr 1, .resume]).evs.get? 0 =
      some EvPc.done ∧
    tstep (trun (tinit 2) [.incr 0, .tstart, .decr 0, .incr 1, .resume]) (.decr 1) =
      trun (tinit 2) [.incr 0, .tstart, .decr 0, .incr 1, .resume] :=
  ⟨(c1_teardown_waits_for_prior_evictions 2
      [.incr 0, .tstart, .decr 0, .incr 1, .resume]).1 (Or.inl (by decide)) 0 (by decide),
   ((c1_teardown_waits_for_prior_evictions 2
      [.incr 0, .tstart, .decr 0, .incr 1, .resume]).2 (by decide) 1).2⟩
